import Mathlib

/-!
Verification of the financial-filing NLP parser (`src/parser.py`).

The program is a single-pass pipeline of pattern matchers over one string.
We embed it shallowly:

* Python strings are `List Char` (the source only manipulates ASCII; Python
  `str.lower`, `str.isspace`, `\s`, `\d`, `\w` are modelled on their ASCII
  behaviour, which is all the lexicons, keywords and patterns exercise).
* Python floats are modelled as exact rationals `ℚ`: every numeral the code
  parses is a finite decimal, and every arithmetic step of the code
  (multiplication by 1000, ratio division, score normalisation) is exact on
  the values the claims mention.
* Python dicts that the code builds by insertion are association lists in
  insertion order; `dict` membership and indexing are `List.lookup`.
* The regular expressions of `re` are embedded as an explicit abstract
  syntax (`Regex`) and a backtracking matcher (`outcomesF`) that enumerates
  candidate matches in exactly Python's backtracking preference order
  (alternation left first, greedy repetition longest first, lazy repetition
  shortest first); `re.search` takes the first candidate at the smallest
  start position.  The matcher recurses on an explicit fuel, with an
  initial budget `enoughFuel` far above any reachable recursion depth.
* `datetime.now()` (the `parsed_date` field) is wall-clock input with no
  bearing on any claim; the embedded result record omits it.
* All embedded functions are total: the Python code has no `raise` and no
  failing operation on the paths modelled here, which is the "never raises"
  half of the error-handling claims.
-/

/-- Python `str.isspace` / regex `\s` on the ASCII characters the source can
meet: space, tab, newline, carriage return, vertical tab, form feed. -/
def pyIsSpace (c : Char) : Bool :=
  c == ' ' || c == '\t' || c == '\n' || c == '\r' || c == '\x0b' || c == '\x0c'

/-- Python `str.lower`, on its ASCII behaviour. -/
def pyLower (s : List Char) : List Char := s.map Char.toLower

/-- Python `str.strip()`: drop whitespace from both ends. -/
def pyStrip (s : List Char) : List Char :=
  ((s.dropWhile pyIsSpace).reverse.dropWhile pyIsSpace).reverse

/-- Python slice `s[a:b]` for `0 ≤ a ≤ b` (both clamped to the length).
`Nat` subtraction at call sites supplies Python's `max(0, ·)`. -/
def pySlice (s : List Char) (a b : Nat) : List Char := (s.take b).drop a

/-- Python `s.count(pat)` for a nonempty `pat`: non-overlapping occurrences,
scanning from the left and skipping a whole match.  (The source never counts
an empty pattern; for `pat = []` this returns 0.) -/
def pyCount (pat : List Char) : List Char → Nat
  | [] => 0
  | c :: rest =>
    if h : pat ≠ [] ∧ pat.isPrefixOf (c :: rest) then
      1 + pyCount pat ((c :: rest).drop pat.length)
    else
      pyCount pat rest
termination_by s => s.length
decreasing_by
  · have hlen : 1 ≤ pat.length := by
      cases pat with
      | nil => exact absurd rfl h.1
      | cons a as => simp
    simp only [List.length_drop, List.length_cons]
    omega
  · simp

/-- Auxiliary loop for `re.split(r'[.!?]+', text)`: `cur` is the reversed
current piece, `inRun` whether the scan is inside a separator run (a run's
first separator closes the current piece; its later separators are
skipped). -/
def splitRunsGo (isSep : Char → Bool) : List Char → Bool → List Char → List (List Char)
  | cur, _, [] => [cur.reverse]
  | cur, inRun, c :: rest =>
    if isSep c then
      if inRun then
        splitRunsGo isSep cur true rest
      else
        cur.reverse :: splitRunsGo isSep [] true rest
    else
      splitRunsGo isSep (c :: cur) false rest

/-- Python `re.split` on a one-character-class-plus pattern: split at every
maximal run of separator characters (pieces at the ends may be empty). -/
def splitRuns (isSep : Char → Bool) (s : List Char) : List (List Char) :=
  splitRunsGo isSep [] false s

/-- Value of a digit string, most significant first. -/
def digitsVal (ds : List Char) : Nat := ds.foldl (fun a c => 10 * a + (c.toNat - 48)) 0

/-- Python `float(s)` restricted to the alphabet the metric extractor can
produce (digits and periods, commas already removed): defined exactly when
the string has at least one digit and at most one period, and then exact as
a rational.  Any other string raises `ValueError` in Python, i.e. `none`. -/
def pyFloatOfNumeral (s : List Char) : Option ℚ :=
  if (s.all fun c => c.isDigit || c == '.') ∧ s.count '.' ≤ 1 ∧ s.any Char.isDigit then
    some ((digitsVal (s.takeWhile fun c => c != '.') : ℚ)
      + (digitsVal ((s.dropWhile fun c => c != '.').drop 1) : ℚ)
        / (10 : ℚ) ^ ((s.dropWhile fun c => c != '.').drop 1).length)
  else none

/-- Python `pat in s` (substring containment): some suffix of `s` starts
with `pat`. -/
def containsSub (pat : List Char) : List Char → Bool
  | [] => pat.isPrefixOf []
  | c :: rest => pat.isPrefixOf (c :: rest) || containsSub pat rest

/-!  The regular-expression engine.

`Regex` is the fragment of Python `re` syntax the source uses: character
classes, concatenation, ordered alternation, one capturing group, greedy and
lazy star, the bounded repetitions `r{0,n}` (`repG`, greedy) and `r{0,n}?`
(`repL`, lazy), and the word boundary `\b`.  A repetition with a positive
lower bound `r{1,n}` is written `r · r{0,n-1}`; optionality `?` is an
ordered alternation with `eps`.  Case-insensitive literals
(`re.IGNORECASE`) are encoded directly in their character classes. -/
inductive Regex where
  | eps : Regex
  | cls : (Char → Bool) → Regex
  | wordB : Regex
  | cat : Regex → Regex → Regex
  | alt : Regex → Regex → Regex
  | group : Regex → Regex
  | starG : Regex → Regex
  | starL : Regex → Regex
  | repG : Nat → Regex → Regex
  | repL : Nat → Regex → Regex

/-- Python regex `\w`: ASCII letters, digits, underscore. -/
def isWordChar (c : Char) : Bool := c.isAlphanum || c == '_'

/-- Python `\b` at position `i` of `t`: exactly one neighbour is a word
character. -/
def atBoundary (t : List Char) (i : Nat) : Bool :=
  (if i == 0 then false else (t[i-1]?).any isWordChar) != (t[i]?).any isWordChar

/-- The capture slot after two sequential parts: the later part's group span
wins when set (Python keeps the last time a group matched; the embedded
patterns each have at most one group, matched at most once). -/
def mergeCap (a b : Option (Nat × Nat)) : Option (Nat × Nat) :=
  match b with
  | some p => some p
  | none => a

/-- A crude size of a regex, used only to pick a fuel budget. -/
def rsize : Regex → Nat
  | .eps => 1
  | .cls _ => 1
  | .wordB => 1
  | .cat a b => rsize a + rsize b + 1
  | .alt a b => rsize a + rsize b + 1
  | .group a => rsize a + 1
  | .starG a => rsize a + 1
  | .starL a => rsize a + 1
  | .repG n a => (n + 1) * (rsize a + 1)
  | .repL n a => (n + 1) * (rsize a + 1)

/-- All candidate matches of `r` at position `i` of `t`, as
`(end position, capture span)`, listed in Python's backtracking preference
order: the match `re` reports is the head.  A starred body must consume at
least one character per iteration (`i < m.1`), as in Python, so recursion
depth is bounded; `fuel` makes the recursion structural and is chosen far
above that bound by the callers. -/
def outcomesF (t : List Char) : Nat → Regex → Nat → List (Nat × Option (Nat × Nat))
  | 0, _, _ => []
  | fuel+1, r, i =>
    match r with
    | .eps => [(i, none)]
    | .wordB => if atBoundary t i then [(i, none)] else []
    | .cls p =>
      match t[i]? with
      | some c => if p c then [(i+1, none)] else []
      | none => []
    | .cat r₁ r₂ =>
      (outcomesF t fuel r₁ i).flatMap fun m =>
        (outcomesF t fuel r₂ m.1).map fun m₂ => (m₂.1, mergeCap m.2 m₂.2)
    | .alt r₁ r₂ => outcomesF t fuel r₁ i ++ outcomesF t fuel r₂ i
    | .group r₁ => (outcomesF t fuel r₁ i).map fun m => (m.1, some (i, m.1))
    | .starG r₁ =>
      ((outcomesF t fuel r₁ i).flatMap fun m =>
        if i < m.1 then
          (outcomesF t fuel (.starG r₁) m.1).map fun m₂ => (m₂.1, mergeCap m.2 m₂.2)
        else []) ++ [(i, none)]
    | .starL r₁ =>
      (i, none) :: (outcomesF t fuel r₁ i).flatMap fun m =>
        if i < m.1 then
          (outcomesF t fuel (.starL r₁) m.1).map fun m₂ => (m₂.1, mergeCap m.2 m₂.2)
        else []
    | .repG n r₁ =>
      match n with
      | 0 => [(i, none)]
      | n'+1 =>
        ((outcomesF t fuel r₁ i).flatMap fun m =>
          (outcomesF t fuel (.repG n' r₁) m.1).map fun m₂ =>
            (m₂.1, mergeCap m.2 m₂.2)) ++ [(i, none)]
    | .repL n r₁ =>
      match n with
      | 0 => [(i, none)]
      | n'+1 =>
        (i, none) :: (outcomesF t fuel r₁ i).flatMap fun m =>
          (outcomesF t fuel (.repL n' r₁) m.1).map fun m₂ =>
            (m₂.1, mergeCap m.2 m₂.2)

/-- Fuel budget: recursion depth is at most (regex size) between two
position advances, and the position advances at most `t.length` times. -/
def enoughFuel (r : Regex) (t : List Char) : Nat := (rsize r + 1) * (t.length + 2)

/-- `re.search` scanning from position `i` with `fuel` start positions left:
the first position (smallest) with a candidate match wins, and there the
head candidate is the match.  Returns (start, end, capture span). -/
def searchFromF (t : List Char) (r : Regex) : Nat → Nat → Option (Nat × Nat × Option (Nat × Nat))
  | 0, _ => none
  | fuel+1, i =>
    match outcomesF t (enoughFuel r t) r i with
    | m :: _ => some (i, m.1, m.2)
    | [] => if i < t.length then searchFromF t r fuel (i+1) else none

/-- Python `pattern.search(text)`. -/
def reSearch (r : Regex) (t : List Char) : Option (Nat × Nat × Option (Nat × Nat)) :=
  searchFromF t r (t.length + 1) 0

/-- Python `pattern.findall(text)` match spans: repeated search, resuming at
a match's end (one further on an empty match). -/
def findAllFrom (t : List Char) (r : Regex) : Nat → Nat → List (Nat × Nat)
  | 0, _ => []
  | fuel+1, i =>
    match searchFromF t r (t.length + 1 - i) i with
    | none => []
    | some (s, e, _) => (s, e) :: findAllFrom t r fuel (if s < e then e else e + 1)

/-- Python `pattern.findall(text)` as matched substrings (the source's
entity patterns have no capturing group, so `findall` yields whole
matches). -/
def findMatches (r : Regex) (t : List Char) : List (List Char) :=
  (findAllFrom t r (t.length + 2) 0).map fun p => pySlice t p.1 p.2

/-!  Desugaring helpers for the concrete patterns. -/

/-- Right-nested concatenation of a pattern sequence. -/
def chain : List Regex → Regex
  | [] => .eps
  | [r] => r
  | r :: rs => .cat r (chain rs)

/-- One character of a case-insensitive literal (`re.IGNORECASE`): `a` is
given lower case. -/
def ciChar (a : Char) : Regex := .cls fun c => c.toLower == a

/-- A case-insensitive literal. -/
def litCI (s : List Char) : Regex := chain (s.map ciChar)

/-- Greedy `r?`: prefer the match over the empty alternative. -/
def rOpt (r : Regex) : Regex := .alt r .eps

/-- Greedy `r+`. -/
def plusOf (r : Regex) : Regex := .cat r (.starG r)

/-- `\s` (the metric and entity patterns). -/
def spaceCls : Regex := .cls pyIsSpace

/-- `\s+`. -/
def sPlus : Regex := plusOf spaceCls

/-- `\s*`. -/
def sStar : Regex := .starG spaceCls

/-- `.` without `re.DOTALL`: any character but a newline. -/
def dotNoNL : Regex := .cls fun c => c != '\n'

/-- `.` under `re.DOTALL` (the section patterns): any character. -/
def dotAny : Regex := .cls fun _ => true

/-- `[\d,\.]`: a digit, comma or period. -/
def numChar : Regex := .cls fun c => c.isDigit || c == ',' || c == '.'

/-- `[\$\s]`: a dollar sign or whitespace. -/
def moneyGap : Regex := .cls fun c => c == '$' || pyIsSpace c

/-- `\d`. -/
def digitCls : Regex := .cls Char.isDigit

/-!  The metric patterns of `FinancialMetricExtractor._load_patterns`,
compiled with `re.IGNORECASE`.  Each is a label phrase, a lazy gap `.*?`,
`[\$\s]+`, the capturing group `([\d,\.]+)` and, except for
`earnings_per_share`, the optional trailing `\s*(?:million|billion)?`. -/

/-- `.*?[\$\s]+([\d,\.]+)\s*(?:million|billion)?`. -/
def metricTail : Regex :=
  chain [.starL dotNoNL, plusOf moneyGap, .group (plusOf numChar), sStar,
    rOpt (.alt (litCI ("million".data)) (litCI ("billion".data)))]

/-- `.*?[\$\s]+([\d,\.]+)` (the `earnings_per_share` tail). -/
def metricTailBare : Regex :=
  chain [.starL dotNoNL, plusOf moneyGap, .group (plusOf numChar)]

/-- `(?:revenue|sales|net\s+sales)` and the common tail. -/
def revenueRe : Regex :=
  .cat (.alt (litCI ("revenue".data))
    (.alt (litCI ("sales".data)) (chain [litCI ("net".data), sPlus, litCI ("sales".data)])))
    metricTail

/-- `net\s+income` and the common tail. -/
def netIncomeRe : Regex :=
  .cat (chain [litCI ("net".data), sPlus, litCI ("income".data)]) metricTail

/-- `earnings\s+per\s+share.*?[\$\s]+([\d,\.]+)`. -/
def epsRe : Regex :=
  .cat (chain [litCI ("earnings".data), sPlus, litCI ("per".data), sPlus,
    litCI ("share".data)]) metricTailBare

/-- `gross\s+profit` and the common tail. -/
def grossProfitRe : Regex :=
  .cat (chain [litCI ("gross".data), sPlus, litCI ("profit".data)]) metricTail

/-- `operating\s+income` and the common tail. -/
def operatingIncomeRe : Regex :=
  .cat (chain [litCI ("operating".data), sPlus, litCI ("income".data)]) metricTail

/-- `total\s+assets` and the common tail. -/
def totalAssetsRe : Regex :=
  .cat (chain [litCI ("total".data), sPlus, litCI ("assets".data)]) metricTail

/-- `total\s+liabilities` and the common tail. -/
def totalLiabilitiesRe : Regex :=
  .cat (chain [litCI ("total".data), sPlus, litCI ("liabilities".data)]) metricTail

/-- `cash\s+(?:and\s+)?(?:cash\s+)?equivalents` and the common tail. -/
def cashRe : Regex :=
  .cat (chain [litCI ("cash".data), sPlus, rOpt (chain [litCI ("and".data), sPlus]),
    rOpt (chain [litCI ("cash".data), sPlus]), litCI ("equivalents".data)]) metricTail

/-- `(?:stockholders|shareholders)\s+equity` and the common tail. -/
def stockholdersRe : Regex :=
  .cat (chain [.alt (litCI ("stockholders".data)) (litCI ("shareholders".data)),
    sPlus, litCI ("equity".data)]) metricTail

/-- The pattern table of `_load_patterns`, in dict insertion order. -/
def metricPatterns : List (String × Regex) :=
  [("revenue", revenueRe), ("net_income", netIncomeRe), ("earnings_per_share", epsRe),
   ("gross_profit", grossProfitRe), ("operating_income", operatingIncomeRe),
   ("total_assets", totalAssetsRe), ("total_liabilities", totalLiabilitiesRe),
   ("cash_and_equivalents", cashRe), ("stockholders_equity", stockholdersRe)]

/-- Whether `'billion' in context.lower()` for the context window
`text[max(0, start-50) : end+20]` around a match. -/
def windowHasBillion (text : List Char) (s e : Nat) : Bool :=
  containsSub ("billion".data) (pyLower (pySlice text (s - 50) (e + 20)))

/-- One iteration of `extract_metrics`: search, take group 1, strip commas,
parse as float, and scale by 1000 when the context window holds
"billion".  `none` at any failed step silently omits the metric.  (The
capture group is a mandatory part of every metric pattern, so a match
always carries a span; the `none` branch is unreachable.) -/
def extractOneMetric (text : List Char) (r : Regex) : Option ℚ :=
  match reSearch r text with
  | none => none
  | some (s, e, cap) =>
    match cap with
    | none => none
    | some (cs, ce) =>
      match pyFloatOfNumeral ((pySlice text cs ce).filter fun c => c != ',') with
      | none => none
      | some q => some (if windowHasBillion text s e then q * 1000 else q)

/-- `FinancialMetricExtractor.extract_metrics`: the metrics dict, in
pattern-table order, holding each successfully parsed metric. -/
def extractMetrics (text : List Char) : List (String × ℚ) :=
  metricPatterns.foldl (fun acc p =>
    match extractOneMetric text p.2 with
    | none => acc
    | some q => acc ++ [(p.1, q)]) []

/-- One guard block of `calculate_ratios`: `if <both inputs present> :
if <divisor> > 0: ratios[name] = f a b`, else nothing. -/
def ratioEntry (name : String) (o1 o2 : Option ℚ) (f : ℚ → ℚ → ℚ) :
    List (String × ℚ) :=
  match o1, o2 with
  | some a, some b => if 0 < b then [(name, f a b)] else []
  | _, _ => []

/-- `FinancialMetricExtractor.calculate_ratios`: each ratio is emitted only
when its inputs are present and its divisor is strictly positive. -/
def calculateRatios (metrics : List (String × ℚ)) : List (String × ℚ) :=
  ratioEntry "profit_margin" (metrics.lookup "net_income")
      (metrics.lookup "revenue") (fun ni rv => ni / rv * 100) ++
  ratioEntry "return_on_assets" (metrics.lookup "net_income")
      (metrics.lookup "total_assets") (fun ni ta => ni / ta * 100) ++
  ratioEntry "debt_to_equity" (metrics.lookup "total_liabilities")
      (metrics.lookup "stockholders_equity") (fun tl se => tl / se) ++
  ratioEntry "cash_ratio" (metrics.lookup "cash_and_equivalents")
      (metrics.lookup "total_liabilities") (fun ce tl => ce / tl)

/-!  `SentimentAnalyzer`. -/

/-- The positive lexicon of `_load_lexicons`. -/
def positiveLex : List (List Char) :=
  ["growth", "increase", "improved", "strong", "positive",
   "gain", "profit", "success", "opportunity", "favorable",
   "expand", "efficient", "excellent", "robust", "momentum",
   "outperform", "exceeded", "innovative", "competitive"].map String.data

/-- The negative lexicon of `_load_lexicons`. -/
def negativeLex : List (List Char) :=
  ["decline", "decrease", "loss", "weak", "negative",
   "risk", "challenge", "concern", "adverse", "difficult",
   "uncertainty", "volatile", "impairment", "litigation",
   "default", "breach", "deteriorate", "unsuccessful"].map String.data

/-- The uncertainty lexicon of `_load_lexicons`. -/
def uncertaintyLex : List (List Char) :=
  ["may", "could", "might", "uncertain", "estimate",
   "believe", "expect", "anticipate", "subject to",
   "depends", "varies", "fluctuate"].map String.data

/-- One category's raw count: the sum over the lexicon of
`text_lower.count(word)`. -/
def lexCount (lex : List (List Char)) (lowered : List Char) : Nat :=
  (lex.map fun w => pyCount w lowered).sum

/-- `SentimentAnalyzer._label_sentiment`.  The thresholds 0.6 and 0.4 are
exact here (see the header note on modelling floats as rationals). -/
def labelSentiment (score : ℚ) : String :=
  if score > 3/5 then "Positive" else if score < 2/5 then "Negative" else "Neutral"

/-- The result dict of `analyze_text`: the three counts, the three scores,
`overall_sentiment` and `sentiment_label`. -/
structure SentimentResult where
  positiveCount : Nat
  negativeCount : Nat
  uncertaintyCount : Nat
  positiveScore : ℚ
  negativeScore : ℚ
  uncertaintyScore : ℚ
  overallSentiment : ℚ
  sentimentLabel : String
deriving DecidableEq

/-- `SentimentAnalyzer.analyze_text`: substring counts over the lower-cased
text, normalised to scores when any word matched, otherwise zero scores and
the neutral midpoint 0.5. -/
def analyzeText (text : List Char) : SentimentResult :=
  let lowered := pyLower text
  let p := lexCount positiveLex lowered
  let n := lexCount negativeLex lowered
  let u := lexCount uncertaintyLex lowered
  let total := p + n + u
  if total = 0 then
    { positiveCount := p, negativeCount := n, uncertaintyCount := u,
      positiveScore := 0, negativeScore := 0, uncertaintyScore := 0,
      overallSentiment := 1/2, sentimentLabel := labelSentiment (1/2) }
  else
    let ps : ℚ := (p : ℚ) / (total : ℚ)
    let ns : ℚ := (n : ℚ) / (total : ℚ)
    let us : ℚ := (u : ℚ) / (total : ℚ)
    let overall : ℚ := (ps - ns + 1) / 2
    { positiveCount := p, negativeCount := n, uncertaintyCount := u,
      positiveScore := ps, negativeScore := ns, uncertaintyScore := us,
      overallSentiment := overall, sentimentLabel := labelSentiment overall }

/-!  `EntityExtractor`. -/

/-- `[A-Z]` and `[a-z]` under `re.IGNORECASE`: both match any ASCII
letter of either case. -/
def alphaCls : Regex := .cls Char.isAlpha

/-- `\b(?:[A-Z][a-z]+(?:\s+[A-Z][a-z]+)*)\s+(?:Inc\.|Corp\.|LLC|Ltd\.)`,
compiled with `re.IGNORECASE` — which makes the word classes match both
cases, not just the suffix. -/
def companyRe : Regex :=
  chain [.wordB, alphaCls, plusOf alphaCls,
    .starG (chain [sPlus, alphaCls, plusOf alphaCls]), sPlus,
    .alt (litCI ("inc.".data))
      (.alt (litCI ("corp.".data)) (.alt (litCI ("llc".data)) (litCI ("ltd.".data))))]

/-- `(?:January|…|December)\s+\d{1,2},?\s+\d{4}` with `re.IGNORECASE`. -/
def dateRe : Regex :=
  chain [.alt (litCI ("january".data)) (.alt (litCI ("february".data))
      (.alt (litCI ("march".data)) (.alt (litCI ("april".data))
      (.alt (litCI ("may".data)) (.alt (litCI ("june".data))
      (.alt (litCI ("july".data)) (.alt (litCI ("august".data))
      (.alt (litCI ("september".data)) (.alt (litCI ("october".data))
      (.alt (litCI ("november".data)) (litCI ("december".data)))))))))))),
    sPlus, digitCls, .repG 1 digitCls, rOpt (.cls fun c => c == ','),
    sPlus, digitCls, digitCls, digitCls, digitCls]

/-- `\$[\d,]+(?:\.\d{2})?`. -/
def moneyRe : Regex :=
  chain [.cls (fun c => c == '$'), plusOf (.cls fun c => c.isDigit || c == ','),
    rOpt (chain [.cls (fun c => c == '.'), digitCls, digitCls])]

/-- `\d+(?:\.\d+)?%`. -/
def percentRe : Regex :=
  chain [plusOf digitCls, rOpt (chain [.cls (fun c => c == '.'), plusOf digitCls]),
    .cls fun c => c == '%']

/-- The entity pattern table of `EntityExtractor._load_patterns`. -/
def entityPatterns : List (String × Regex) :=
  [("company", companyRe), ("date", dateRe), ("money", moneyRe), ("percentage", percentRe)]

/-- `EntityExtractor.extract_entities`: all matches of each class,
deduplicated.  (`list(set(matches))` leaves the order unspecified; the
embedding deduplicates keeping last occurrences, and no claim depends on
the order.) -/
def extractEntities (text : List Char) : List (String × List (List Char)) :=
  entityPatterns.map fun p => (p.1, (findMatches p.2 text).dedup)

/-!  `SECFilingParser`. -/

/-- The MD&A section pattern, `re.IGNORECASE | re.DOTALL`:
`(?:ITEM\s+7|Management.{0,50}Discussion).{0,100}?(.{1,10000}?)(?:ITEM\s+8|Financial\s+Statements)`. -/
def mdaRe : Regex :=
  chain [.alt (chain [litCI ("item".data), sPlus, litCI ("7".data)])
      (chain [litCI ("management".data), .repG 50 dotAny, litCI ("discussion".data)]),
    .repL 100 dotAny,
    .group (.cat dotAny (.repL 9999 dotAny)),
    .alt (chain [litCI ("item".data), sPlus, litCI ("8".data)])
      (chain [litCI ("financial".data), sPlus, litCI ("statements".data)])]

/-- The risk-factor section pattern, `re.IGNORECASE | re.DOTALL`:
`(?:ITEM\s+1A|Risk\s+Factors).{0,100}?(.{1,10000}?)(?:ITEM\s+1B|ITEM\s+2)`. -/
def riskSectionRe : Regex :=
  chain [.alt (chain [litCI ("item".data), sPlus, litCI ("1a".data)])
      (chain [litCI ("risk".data), sPlus, litCI ("factors".data)]),
    .repL 100 dotAny,
    .group (.cat dotAny (.repL 9999 dotAny)),
    .alt (chain [litCI ("item".data), sPlus, litCI ("1b".data)])
      (chain [litCI ("item".data), sPlus, litCI ("2".data)])]

/-- Group 1 of a successful section search.  (The group is a mandatory part
of both section patterns, so a match always carries a span.) -/
def sectionOf (r : Regex) (text : List Char) : Option (List Char) :=
  match reSearch r text with
  | some (_, _, some cp) => some (pySlice text cp.1 cp.2)
  | _ => none

/-- `SECFilingParser._extract_sections`: the sections dict, `mda` first. -/
def extractSections (text : List Char) : List (String × List Char) :=
  (match sectionOf mdaRe text with
   | some s => [("mda", s)]
   | none => []) ++
  (match sectionOf riskSectionRe text with
   | some s => [("risk_factors", s)]
   | none => [])

/-- The risk keywords of `_extract_risk_factors`. -/
def riskKeywords : List (List Char) :=
  ["risk", "uncertainty", "adverse", "challenge", "concern"].map String.data

/-- The separator class of `re.split(r'[.!?]+', text)`. -/
def isSentenceSep (c : Char) : Bool := c == '.' || c == '!' || c == '?'

/-- The filter of `_extract_risk_factors`: a keyword occurs in the
lower-cased sentence and the stripped sentence is longer than 50. -/
def riskQualifies (sentence : List Char) : Bool :=
  riskKeywords.any (fun k => containsSub k (pyLower sentence)) &&
    decide (50 < (pyStrip sentence).length)

/-- `SECFilingParser._extract_risk_factors`: the stripped qualifying
sentences in document order, capped at the first 10. -/
def extractRiskFactors (text : List Char) : List (List Char) :=
  ((splitRuns isSentenceSep text).foldl
    (fun acc s => if riskQualifies s then acc ++ [pyStrip s] else acc) []).take 10

/-- The record `parse_filing` assembles (its `parsed_date` wall-clock field
is omitted, see the header). -/
structure FilingResult where
  ticker : Option String
  filingType : String
  metrics : List (String × ℚ)
  ratios : List (String × ℚ)
  sentiment : SentimentResult
  entities : List (String × List (List Char))
  risks : List (List Char)
  sectionLengths : List (String × Nat)

/-- `SECFilingParser.parse_filing`: the full pipeline over one document.
Total on every input — no step can fail. -/
def parseFiling (text : List Char) (ticker : Option String) (filingType : String) :
    FilingResult :=
  let sections := extractSections text
  let metrics := extractMetrics text
  let ratios := calculateRatios metrics
  let mdaText := (sections.lookup "mda").getD (text.take 5000)
  let sentiment := analyzeText mdaText
  let entities := extractEntities text
  let risks := extractRiskFactors text
  { ticker := ticker, filingType := filingType, metrics := metrics, ratios := ratios,
    sentiment := sentiment, entities := entities, risks := risks,
    sectionLengths := sections.map fun p => (p.1, p.2.length) }

/-!  Lemma layer: no pattern can match inside whitespace-only text. -/

/-- The six ASCII whitespace characters: exactly where `pyIsSpace` holds. -/
def spaceChars : List Char := [' ', '\t', '\n', '\r', '\x0b', '\x0c']

/-- Zero-width regexes: they consume nothing. -/
def zeroW : Regex → Bool
  | .eps => true
  | .wordB => true
  | _ => false

/-- Syntactic check: every match of the regex must start by consuming a
character outside `spaceChars`.  This rules out any match inside
whitespace-only text. -/
def nonSpaceFirst : Regex → Bool
  | .cls q => spaceChars.all fun c => !(q c)
  | .cat r₁ r₂ => nonSpaceFirst r₁ || (zeroW r₁ && nonSpaceFirst r₂)
  | .alt r₁ r₂ => nonSpaceFirst r₁ && nonSpaceFirst r₂
  | .group r₁ => nonSpaceFirst r₁
  | _ => false

/-- `Sem t r i j`: the regex `r` can match the slice of `t` from position
`i` (inclusive) to `j` (exclusive). -/
inductive Sem (t : List Char) : Regex → Nat → Nat → Prop where
  | eps {i} : Sem t .eps i i
  | cls {q : Char → Bool} {i : Nat} {c : Char} :
      t[i]? = some c → q c = true → Sem t (.cls q) i (i+1)
  | wordB {i} : atBoundary t i = true → Sem t .wordB i i
  | cat {r₁ r₂ i k j} : Sem t r₁ i k → Sem t r₂ k j → Sem t (.cat r₁ r₂) i j
  | altL {r₁ r₂ i j} : Sem t r₁ i j → Sem t (.alt r₁ r₂) i j
  | altR {r₁ r₂ i j} : Sem t r₂ i j → Sem t (.alt r₁ r₂) i j
  | group {r i j} : Sem t r i j → Sem t (.group r) i j
  | starGnil {r i} : Sem t (.starG r) i i
  | starGcons {r i k j} :
      Sem t r i k → Sem t (.starG r) k j → Sem t (.starG r) i j
  | starLnil {r i} : Sem t (.starL r) i i
  | starLcons {r i k j} :
      Sem t r i k → Sem t (.starL r) k j → Sem t (.starL r) i j
  | repGnil {n r i} : Sem t (.repG n r) i i
  | repGcons {n r i k j} :
      Sem t r i k → Sem t (.repG n r) k j → Sem t (.repG (n+1) r) i j
  | repLnil {n r i} : Sem t (.repL n r) i i
  | repLcons {n r i k j} :
      Sem t r i k → Sem t (.repL n r) k j → Sem t (.repL (n+1) r) i j

/-- `[A-Z][a-z]+` under `re.IGNORECASE`: at least two letters, any case. -/
def isWordTok (l : List Char) : Prop := 2 ≤ l.length ∧ ∀ c ∈ l, c.isAlpha = true

/-- `\s+`: a nonempty whitespace run. -/
def isSpaceRun (l : List Char) : Prop := l ≠ [] ∧ ∀ c ∈ l, pyIsSpace c = true

/-- `(?:\s+[A-Z][a-z]+)*` under `re.IGNORECASE`: alternating whitespace
runs and letter words. -/
inductive SpWordTail : List Char → Prop where
  | nil : SpWordTail []
  | cons {sp w rest : List Char} : isSpaceRun sp → isWordTok w →
      SpWordTail rest → SpWordTail (sp ++ (w ++ rest))

/-- The corporate suffixes, lower case. -/
def corpSuffixes : List (List Char) := ["inc.", "corp.", "llc", "ltd."].map String.data

/-- Shape of every company match: a letter word (≥ 2 letters, any case),
more whitespace-separated letter words, whitespace, and a corporate suffix
matched case-insensitively. -/
def companyShape (l : List Char) : Prop :=
  ∃ w tl sp suf, l = w ++ (tl ++ (sp ++ suf)) ∧ isWordTok w ∧ SpWordTail tl ∧
    isSpaceRun sp ∧ pyLower suf ∈ corpSuffixes

/-- Witness for C7's 20-sentence clause: a text of 20 qualifying sentences
separated by periods. -/
def riskCapText : List Char :=
  (List.replicate 20
    (("The risk of material adverse outcomes is a concern for investors".data)
      ++ ('.' :: [' ']))).flatten

theorem pyIsSpace_iff_mem {c : Char} : pyIsSpace c = true ↔ c ∈ spaceChars := by
  simp only [pyIsSpace, spaceChars, List.mem_cons, List.not_mem_nil, or_false,
    Bool.or_eq_true, beq_iff_eq, or_assoc]

theorem toLower_of_pyIsSpace {c : Char} (h : pyIsSpace c = true) : c.toLower = c := by
  have h' := pyIsSpace_iff_mem.mp h
  simp only [spaceChars, List.mem_cons, List.not_mem_nil, or_false] at h'
  rcases h' with rfl | rfl | rfl | rfl | rfl | rfl <;> decide

/-- A zero-width regex yields at most the trivial outcome. -/
theorem outcomesF_zeroW {t : List Char} {r : Regex} (hz : zeroW r = true)
    (fuel i : Nat) :
    outcomesF t fuel r i = [] ∨ outcomesF t fuel r i = [(i, none)] := by
  cases r with
  | eps =>
    cases fuel with
    | zero => exact Or.inl rfl
    | succ f => exact Or.inr rfl
  | wordB =>
    cases fuel with
    | zero => exact Or.inl rfl
    | succ f =>
      by_cases hb : atBoundary t i <;> simp [outcomesF, hb]
  | cls q => simp [zeroW] at hz
  | cat a b => simp [zeroW] at hz
  | alt a b => simp [zeroW] at hz
  | group a => simp [zeroW] at hz
  | starG a => simp [zeroW] at hz
  | starL a => simp [zeroW] at hz
  | repG n a => simp [zeroW] at hz
  | repL n a => simp [zeroW] at hz

theorem outcomesF_eq_nil_of_nonSpaceFirst {t : List Char}
    (ht : ∀ c ∈ t, pyIsSpace c = true) :
    ∀ r : Regex, nonSpaceFirst r = true → ∀ fuel i, outcomesF t fuel r i = [] := by
  intro r
  induction r with
  | eps => intro h; simp [nonSpaceFirst] at h
  | wordB => intro h; simp [nonSpaceFirst] at h
  | starG r₁ ih => intro h; simp [nonSpaceFirst] at h
  | starL r₁ ih => intro h; simp [nonSpaceFirst] at h
  | repG n r₁ ih => intro h; simp [nonSpaceFirst] at h
  | repL n r₁ ih => intro h; simp [nonSpaceFirst] at h
  | cls q =>
    intro h fuel i
    cases fuel with
    | zero => rfl
    | succ f =>
      simp only [outcomesF]
      cases hc : t[i]? with
      | none => rfl
      | some c =>
        have hall : ∀ x ∈ spaceChars, q x = false := by
          simpa [nonSpaceFirst] using h
        have hq := hall c (pyIsSpace_iff_mem.mp (ht c (List.getElem?_mem hc)))
        simp [hq]
  | cat r₁ r₂ ih₁ ih₂ =>
    intro h fuel i
    cases fuel with
    | zero => rfl
    | succ f =>
      simp only [nonSpaceFirst, Bool.or_eq_true, Bool.and_eq_true] at h
      rcases h with h₁ | ⟨hz, h₂⟩
      · simp [outcomesF, ih₁ h₁]
      · simp only [outcomesF]
        rcases outcomesF_zeroW (t := t) hz f i with h0 | h0 <;>
          rw [h0] <;> simp [ih₂ h₂]
  | alt r₁ r₂ ih₁ ih₂ =>
    intro h fuel i
    cases fuel with
    | zero => rfl
    | succ f =>
      simp only [nonSpaceFirst, Bool.and_eq_true] at h
      simp [outcomesF, ih₁ h.1, ih₂ h.2]
  | group r₁ ih =>
    intro h fuel i
    cases fuel with
    | zero => rfl
    | succ f =>
      simp only [nonSpaceFirst] at h
      simp [outcomesF, ih h]

theorem searchFromF_eq_none {t : List Char} {r : Regex}
    (h : ∀ fuel i, outcomesF t fuel r i = []) :
    ∀ fuel i, searchFromF t r fuel i = none := by
  intro fuel
  induction fuel with
  | zero => intro i; rfl
  | succ f ih =>
    intro i
    simp only [searchFromF, h]
    by_cases hi : i < t.length <;> simp [hi, ih]

theorem findAllFrom_eq_nil {t : List Char} {r : Regex}
    (h : ∀ fuel i, searchFromF t r fuel i = none) :
    ∀ fuel i, findAllFrom t r fuel i = [] := by
  intro fuel i
  cases fuel with
  | zero => rfl
  | succ f => simp [findAllFrom, h]

/-- All the pattern machinery collapses on whitespace-only text. -/
theorem reSearch_eq_none_ws {t : List Char} {r : Regex}
    (ht : ∀ c ∈ t, pyIsSpace c = true) (hr : nonSpaceFirst r = true) :
    reSearch r t = none :=
  searchFromF_eq_none (outcomesF_eq_nil_of_nonSpaceFirst ht r hr) _ _

theorem findMatches_eq_nil_ws {t : List Char} {r : Regex}
    (ht : ∀ c ∈ t, pyIsSpace c = true) (hr : nonSpaceFirst r = true) :
    findMatches r t = [] := by
  unfold findMatches
  rw [findAllFrom_eq_nil
    (searchFromF_eq_none (outcomesF_eq_nil_of_nonSpaceFirst ht r hr))]
  rfl

/-!  Counting and substring search find nothing in whitespace-only text,
because every lexicon word and keyword holds a non-whitespace character. -/

theorem not_isPrefixOf_of_ws {pat s : List Char}
    (hp : ∃ c ∈ pat, pyIsSpace c = false) (hs : ∀ c ∈ s, pyIsSpace c = true) :
    ¬ pat.isPrefixOf s = true := by
  intro hpre
  obtain ⟨d, hd, hdns⟩ := hp
  exact absurd (hs d ((List.isPrefixOf_iff_prefix.mp hpre).sublist.subset hd))
    (by simp [hdns])

theorem pyCount_eq_zero_of_ws {pat s : List Char}
    (hp : ∃ c ∈ pat, pyIsSpace c = false) (hs : ∀ c ∈ s, pyIsSpace c = true) :
    pyCount pat s = 0 := by
  induction s with
  | nil => rw [pyCount]
  | cons c rest ih =>
    rw [pyCount, dif_neg fun hc => not_isPrefixOf_of_ws hp hs hc.2]
    exact ih fun x hx => hs x (List.mem_cons_of_mem c hx)

theorem containsSub_eq_false_of_ws {pat s : List Char}
    (hp : ∃ c ∈ pat, pyIsSpace c = false) (hs : ∀ c ∈ s, pyIsSpace c = true) :
    containsSub pat s = false := by
  induction s with
  | nil =>
    obtain ⟨d, hd, _⟩ := hp
    cases pat with
    | nil => simp at hd
    | cons p ps => rfl
  | cons c rest ih =>
    rw [containsSub, Bool.or_eq_false_iff]
    exact ⟨Bool.eq_false_iff.mpr (not_isPrefixOf_of_ws hp hs),
      ih fun x hx => hs x (List.mem_cons_of_mem c hx)⟩

theorem pyCount_eq_zero_of_not_containsSub {pat s : List Char}
    (h : containsSub pat s = false) : pyCount pat s = 0 := by
  induction s with
  | nil => rw [pyCount]
  | cons c rest ih =>
    rw [containsSub, Bool.or_eq_false_iff] at h
    rw [pyCount, dif_neg fun hc => by simp [hc.2] at h]
    exact ih h.2

theorem pyLower_ws {s : List Char} (hs : ∀ c ∈ s, pyIsSpace c = true) :
    ∀ c ∈ pyLower s, pyIsSpace c = true := by
  intro c hc
  obtain ⟨d, hd, rfl⟩ := List.mem_map.mp hc
  rw [toLower_of_pyIsSpace (hs d hd)]
  exact hs d hd

theorem lexCount_eq_zero_of_ws {lex : List (List Char)} {lowered : List Char}
    (hlex : ∀ w ∈ lex, ∃ c ∈ w, pyIsSpace c = false)
    (hs : ∀ c ∈ lowered, pyIsSpace c = true) :
    lexCount lex lowered = 0 := by
  unfold lexCount
  rw [List.sum_eq_zero]
  intro x hx
  obtain ⟨w, hw, rfl⟩ := List.mem_map.mp hx
  exact pyCount_eq_zero_of_ws (hlex w hw) hs

/-!  The pieces `splitRuns` produces: their characters come from the input,
and none of them is a separator. -/

theorem mem_splitRunsGo_subset {isSep : Char → Bool} :
    ∀ s cur inRun piece, piece ∈ splitRunsGo isSep cur inRun s →
      ∀ c ∈ piece, c ∈ cur ∨ c ∈ s := by
  intro s
  induction s with
  | nil =>
    intro cur inRun piece hp c hc
    simp only [splitRunsGo, List.mem_singleton] at hp
    subst hp
    exact Or.inl (List.mem_reverse.mp hc)
  | cons c₀ rest ih =>
    intro cur inRun piece hp c hc
    by_cases hsep : isSep c₀
    · rw [splitRunsGo, if_pos hsep] at hp
      cases inRun with
      | true =>
        rcases ih cur true piece hp c hc with h | h
        · exact Or.inl h
        · exact Or.inr (List.mem_cons_of_mem _ h)
      | false =>
        rcases List.mem_cons.mp hp with rfl | hp'
        · exact Or.inl (List.mem_reverse.mp hc)
        · rcases ih [] true piece hp' c hc with h | h
          · simp at h
          · exact Or.inr (List.mem_cons_of_mem _ h)
    · rw [splitRunsGo, if_neg hsep] at hp
      rcases ih (c₀ :: cur) false piece hp c hc with h | h
      · rcases List.mem_cons.mp h with rfl | h'
        · exact Or.inr (List.mem_cons_self _ _)
        · exact Or.inl h'
      · exact Or.inr (List.mem_cons_of_mem _ h)

/-- The risk-factor loop, reshaped: appending on a filter is mapping over
the filtered list. -/
theorem foldl_strip_eq (q : List Char → Bool) (f : List Char → List Char) :
    ∀ (l : List (List Char)) (acc : List (List Char)),
      l.foldl (fun a s => if q s then a ++ [f s] else a) acc
        = acc ++ (l.filter q).map f := by
  intro l
  induction l with
  | nil => intro acc; simp
  | cons s rest ih =>
    intro acc
    by_cases hq : q s <;> simp [hq, ih, List.filter_cons]

/-- `_extract_risk_factors` is: split, filter, strip, cap at 10. -/
theorem extractRiskFactors_eq (text : List Char) :
    extractRiskFactors text =
      (((splitRuns isSentenceSep text).filter riskQualifies).map pyStrip).take 10 := by
  unfold extractRiskFactors
  rw [foldl_strip_eq]
  simp

/-- `extract_metrics` is a filterMap over the pattern table. -/
theorem foldl_metric_eq (g : String × Regex → Option ℚ) :
    ∀ (l : List (String × Regex)) (acc : List (String × ℚ)),
      l.foldl (fun a p => match g p with | none => a | some q => a ++ [(p.1, q)]) acc
        = acc ++ l.filterMap fun p => (g p).map fun q => (p.1, q) := by
  intro l
  induction l with
  | nil => intro acc; simp
  | cons p rest ih =>
    intro acc
    cases hg : g p <;> simp [hg, ih, List.filterMap_cons]

theorem extractMetrics_eq_filterMap (text : List Char) :
    extractMetrics text = metricPatterns.filterMap fun p =>
      (extractOneMetric text p.2).map fun q => (p.1, q) := by
  unfold extractMetrics
  rw [foldl_metric_eq fun p => extractOneMetric text p.2]
  simp

theorem mem_splitRunsGo_no_sep {isSep : Char → Bool} :
    ∀ s cur inRun piece, (∀ c ∈ cur, isSep c = false) →
      piece ∈ splitRunsGo isSep cur inRun s → ∀ c ∈ piece, isSep c = false := by
  intro s
  induction s with
  | nil =>
    intro cur inRun piece hcur hp c hc
    simp only [splitRunsGo, List.mem_singleton] at hp
    subst hp
    exact hcur c (List.mem_reverse.mp hc)
  | cons c₀ rest ih =>
    intro cur inRun piece hcur hp c hc
    by_cases hsep : isSep c₀
    · rw [splitRunsGo, if_pos hsep] at hp
      cases inRun with
      | true => exact ih cur true piece hcur hp c hc
      | false =>
        rcases List.mem_cons.mp hp with rfl | hp'
        · exact hcur c (List.mem_reverse.mp hc)
        · exact ih [] true piece (by simp) hp' c hc
    · rw [splitRunsGo, if_neg hsep] at hp
      refine ih (c₀ :: cur) false piece ?_ hp c hc
      intro x hx
      rcases List.mem_cons.mp hx with rfl | hx'
      · exact Bool.eq_false_iff.mpr hsep
      · exact hcur x hx'

/-!  Whitespace-only input: every pipeline step yields its empty output. -/

theorem metricPatterns_nonSpaceFirst : ∀ p ∈ metricPatterns, nonSpaceFirst p.2 = true := by
  have h : metricPatterns.all (fun p => nonSpaceFirst p.2) = true := by decide
  exact fun p hp => List.all_eq_true.mp h p hp

theorem extractMetrics_eq_nil_ws {t : List Char} (ht : ∀ c ∈ t, pyIsSpace c = true) :
    extractMetrics t = [] := by
  rw [extractMetrics_eq_filterMap]
  rw [List.filterMap_eq_nil_iff]
  intro p hp
  unfold extractOneMetric
  rw [reSearch_eq_none_ws ht (metricPatterns_nonSpaceFirst p hp)]
  rfl

theorem calculateRatios_nil : calculateRatios [] = [] := rfl

theorem extractSections_eq_nil_ws {t : List Char} (ht : ∀ c ∈ t, pyIsSpace c = true) :
    extractSections t = [] := by
  unfold extractSections sectionOf
  rw [reSearch_eq_none_ws ht (by decide : nonSpaceFirst mdaRe = true),
    reSearch_eq_none_ws ht (by decide : nonSpaceFirst riskSectionRe = true)]
  rfl

theorem extractEntities_eq_empty_ws {t : List Char} (ht : ∀ c ∈ t, pyIsSpace c = true) :
    extractEntities t =
      [("company", []), ("date", []), ("money", []), ("percentage", [])] := by
  unfold extractEntities entityPatterns
  rw [List.map_cons, List.map_cons, List.map_cons, List.map_cons, List.map_nil,
    findMatches_eq_nil_ws ht (by decide : nonSpaceFirst companyRe = true),
    findMatches_eq_nil_ws ht (by decide : nonSpaceFirst dateRe = true),
    findMatches_eq_nil_ws ht (by decide : nonSpaceFirst moneyRe = true),
    findMatches_eq_nil_ws ht (by decide : nonSpaceFirst percentRe = true)]
  rfl

theorem extractRiskFactors_eq_nil_ws {t : List Char} (ht : ∀ c ∈ t, pyIsSpace c = true) :
    extractRiskFactors t = [] := by
  rw [extractRiskFactors_eq]
  have hfilter : (splitRuns isSentenceSep t).filter riskQualifies = [] := by
    rw [List.filter_eq_nil_iff]
    intro s hs hq
    have hsws : ∀ c ∈ s, pyIsSpace c = true := by
      intro c hc
      rcases mem_splitRunsGo_subset t [] false s hs c hc with h | h
      · simp at h
      · exact ht c h
    have hkw : riskKeywords.any (fun k => containsSub k (pyLower s)) = false := by
      rw [List.any_eq_false]
      intro k hk
      have hex : ∃ c ∈ k, pyIsSpace c = false := by
        fin_cases hk <;> decide
      simp [containsSub_eq_false_of_ws hex (pyLower_ws hsws)]
    unfold riskQualifies at hq
    rw [hkw] at hq
    simp at hq
  rw [hfilter]
  rfl

theorem labelSentiment_half : labelSentiment (1/2) = "Neutral" := by
  unfold labelSentiment
  rw [if_neg (by norm_num), if_neg (by norm_num)]

theorem analyzeText_ws {t : List Char} (ht : ∀ c ∈ t, pyIsSpace c = true) :
    (analyzeText t).overallSentiment = 1/2 ∧
      (analyzeText t).sentimentLabel = "Neutral" := by
  have hlow := pyLower_ws ht
  have hp : lexCount positiveLex (pyLower t) = 0 :=
    lexCount_eq_zero_of_ws (by decide) hlow
  have hn : lexCount negativeLex (pyLower t) = 0 :=
    lexCount_eq_zero_of_ws (by decide) hlow
  have hu : lexCount uncertaintyLex (pyLower t) = 0 :=
    lexCount_eq_zero_of_ws (by decide) hlow
  unfold analyzeText
  simp only [hp, hn, hu, Nat.add_zero, if_pos rfl]
  exact ⟨rfl, labelSentiment_half⟩

/-- C1: `parse_filing` is total — the embedding returns a `FilingResult` for
every input, by construction — and on empty or whitespace-only text the
metrics, ratios and sections mappings and the risk list are empty, every
entity class maps to an empty collection, and `overall_sentiment` is
0.5. -/
theorem parse_filing_total_empty_on_ws (text : List Char) (ticker : Option String)
    (ft : String) (h : ∀ c ∈ text, pyIsSpace c = true) :
    (parseFiling text ticker ft).metrics = [] ∧
    (parseFiling text ticker ft).ratios = [] ∧
    (parseFiling text ticker ft).sectionLengths = [] ∧
    (parseFiling text ticker ft).risks = [] ∧
    (parseFiling text ticker ft).entities =
      [("company", []), ("date", []), ("money", []), ("percentage", [])] ∧
    (parseFiling text ticker ft).sentiment.overallSentiment = 1/2 := by
  have hm := extractMetrics_eq_nil_ws h
  have hs := extractSections_eq_nil_ws h
  have htake : ∀ c ∈ text.take 5000, pyIsSpace c = true :=
    fun c hc => h c (List.mem_of_mem_take hc)
  have hsent := (analyzeText_ws htake).1
  unfold parseFiling
  simp only [hm, hs, calculateRatios_nil, extractRiskFactors_eq_nil_ws h,
    extractEntities_eq_empty_ws h, List.lookup_nil, Option.getD_none, List.map_nil]
  refine ⟨by trivial, by trivial, by trivial, by trivial, by trivial, hsent⟩

theorem lookup_ratioEntry_self (name : String) {o1 o2 : Option ℚ}
    {f : ℚ → ℚ → ℚ} :
    (List.lookup name (ratioEntry name o1 o2 f)).isSome ↔
      o1.isSome ∧ ∃ b, o2 = some b ∧ 0 < b := by
  rcases o1 with _ | a <;> rcases o2 with _ | b
  · simp [ratioEntry]
  · simp [ratioEntry]
  · simp [ratioEntry]
  · by_cases hb : 0 < b <;> simp [ratioEntry, hb]

theorem lookup_ratioEntry_ne (name k : String) {o1 o2 : Option ℚ}
    {f : ℚ → ℚ → ℚ} (hk : ¬ k = name) :
    List.lookup k (ratioEntry name o1 o2 f) = none := by
  rcases o1 with _ | a <;> rcases o2 with _ | b
  · rfl
  · rfl
  · rfl
  · have hkb : (k == name) = false := beq_eq_false_iff_ne.mpr hk
    by_cases hb : 0 < b <;> simp [ratioEntry, hb, List.lookup, hkb]

/-- C4: `calculate_ratios` emits each ratio exactly when all of that
ratio's input metrics are present and its divisor is strictly positive,
omitting it otherwise (and raising nothing — the embedding is total); in
particular on `{net_income: 450, revenue: 0}` no ratio is emitted and
`profit_margin` is absent. -/
theorem calculate_ratios_guarded :
    (∀ m : List (String × ℚ),
      (((calculateRatios m).lookup "profit_margin").isSome ↔
        (m.lookup "net_income").isSome ∧
          ∃ rv, m.lookup "revenue" = some rv ∧ 0 < rv) ∧
      (((calculateRatios m).lookup "return_on_assets").isSome ↔
        (m.lookup "net_income").isSome ∧
          ∃ ta, m.lookup "total_assets" = some ta ∧ 0 < ta) ∧
      (((calculateRatios m).lookup "debt_to_equity").isSome ↔
        (m.lookup "total_liabilities").isSome ∧
          ∃ se, m.lookup "stockholders_equity" = some se ∧ 0 < se) ∧
      (((calculateRatios m).lookup "cash_ratio").isSome ↔
        (m.lookup "cash_and_equivalents").isSome ∧
          ∃ tl, m.lookup "total_liabilities" = some tl ∧ 0 < tl)) ∧
    calculateRatios [("net_income", 450), ("revenue", 0)] = [] ∧
    (calculateRatios [("net_income", 450), ("revenue", 0)]).lookup "profit_margin"
      = none := by
  refine ⟨?_, ?_, ?_⟩
  · intro m
    unfold calculateRatios
    simp only [List.lookup_append,
      lookup_ratioEntry_ne "return_on_assets" "profit_margin" (by decide),
      lookup_ratioEntry_ne "debt_to_equity" "profit_margin" (by decide),
      lookup_ratioEntry_ne "cash_ratio" "profit_margin" (by decide),
      lookup_ratioEntry_ne "profit_margin" "return_on_assets" (by decide),
      lookup_ratioEntry_ne "debt_to_equity" "return_on_assets" (by decide),
      lookup_ratioEntry_ne "cash_ratio" "return_on_assets" (by decide),
      lookup_ratioEntry_ne "profit_margin" "debt_to_equity" (by decide),
      lookup_ratioEntry_ne "return_on_assets" "debt_to_equity" (by decide),
      lookup_ratioEntry_ne "cash_ratio" "debt_to_equity" (by decide),
      lookup_ratioEntry_ne "profit_margin" "cash_ratio" (by decide),
      lookup_ratioEntry_ne "return_on_assets" "cash_ratio" (by decide),
      lookup_ratioEntry_ne "debt_to_equity" "cash_ratio" (by decide),
      Option.or_none, Option.none_or]
    exact ⟨lookup_ratioEntry_self _, lookup_ratioEntry_self _,
      lookup_ratioEntry_self _, lookup_ratioEntry_self _⟩
  · decide
  · decide

/-- Head of a `dropWhile` never satisfies the dropped predicate. -/
theorem head?_dropWhile_not (p : Char → Bool) (l : List Char) {c : Char}
    (h : (l.dropWhile p).head? = some c) : p c = false := by
  induction l with
  | nil => simp at h
  | cons a l ih =>
    by_cases hpa : p a
    · rw [List.dropWhile_cons_of_pos hpa] at h
      exact ih h
    · rw [List.dropWhile_cons_of_neg hpa] at h
      simp only [List.head?_cons, Option.some.injEq] at h
      rw [← h]
      exact Bool.eq_false_iff.mpr hpa

/-- A nonempty suffix shares its last element with the whole list. -/
theorem getLast?_of_suffix {u v : List Char} (h : u <:+ v) {c : Char}
    (hc : u.getLast? = some c) : v.getLast? = some c := by
  obtain ⟨w, rfl⟩ := h
  rw [List.getLast?_append_of_ne_nil]
  · exact hc
  · intro hu
    rw [hu] at hc
    simp at hc

theorem pyStrip_sublist (s : List Char) : List.Sublist (pyStrip s) s := by
  unfold pyStrip
  have h2 : List.Sublist ((s.dropWhile pyIsSpace).reverse.dropWhile pyIsSpace)
      (s.dropWhile pyIsSpace).reverse := List.dropWhile_sublist _
  have h3 : List.Sublist ((s.dropWhile pyIsSpace).reverse.dropWhile pyIsSpace).reverse
      (s.dropWhile pyIsSpace) := by
    simpa using List.reverse_sublist.mpr h2
  exact h3.trans (List.dropWhile_sublist _)

/-- A nonempty stripped string starts with a non-whitespace character. -/
theorem pyStrip_head_not_space {s : List Char} {c : Char}
    (h : (pyStrip s).head? = some c) : pyIsSpace c = false := by
  unfold pyStrip at h
  rw [List.head?_reverse] at h
  have hCne : (s.dropWhile pyIsSpace).reverse.dropWhile pyIsSpace ≠ [] := by
    intro hnil
    rw [hnil] at h
    simp at h
  have hlast := getLast?_of_suffix (List.dropWhile_suffix pyIsSpace) h
  rw [List.getLast?_reverse] at hlast
  exact head?_dropWhile_not pyIsSpace s hlast

/-- A nonempty stripped string ends with a non-whitespace character. -/
theorem pyStrip_getLast_not_space {s : List Char} {c : Char}
    (h : (pyStrip s).getLast? = some c) : pyIsSpace c = false := by
  unfold pyStrip at h
  rw [List.getLast?_reverse] at h
  exact head?_dropWhile_not pyIsSpace _ h

/-- Non-overlapping count comparison: counting a pattern `q` inside any
suffix `u` of `s` finds at most as many occurrences as counting a nonempty
prefix `p` of `q` inside `s` itself (every greedy `q`-occurrence contains a
`p`-occurrence further left). -/
theorem pyCount_le_of_prefix {p q : List Char} (hpq : p <+: q) (hne : p ≠ []) :
    ∀ (fuel : Nat) (s u : List Char), s.length + u.length ≤ fuel → u <:+ s →
      pyCount q u ≤ pyCount p s := by
  have hplen : 0 < p.length := List.length_pos.mpr hne
  have hqlen : p.length ≤ q.length := hpq.length_le
  have hqne : q ≠ [] :=
    List.length_pos.mp (lt_of_lt_of_le hplen hqlen)
  intro fuel
  induction fuel with
  | zero =>
    intro s u hlen hsu
    have hu : u = [] := by
      cases u with
      | nil => rfl
      | cons a l => simp at hlen
    rw [hu, pyCount]
    exact Nat.zero_le _
  | succ N ih =>
    intro s u hlen hsu
    cases u with
    | nil =>
      rw [pyCount]
      exact Nat.zero_le _
    | cons c u' =>
      cases s with
      | nil =>
        have := List.suffix_nil.mp hsu
        simp at this
      | cons d s' =>
        by_cases hqpre : q.isPrefixOf (c :: u')
        · by_cases hppre : p.isPrefixOf (d :: s')
          · rw [pyCount, dif_pos ⟨hqne, hqpre⟩, pyCount, dif_pos ⟨hne, hppre⟩]
            have hsub : (c :: u').drop q.length <:+ (d :: s').drop p.length := by
              obtain ⟨pre, hpre⟩ := hsu
              have hdrop : (d :: s').drop (pre.length + q.length)
                  = (c :: u').drop q.length := by
                rw [← hpre, List.drop_append]
              rw [← hdrop]
              exact List.drop_suffix_drop_left _ (by omega)
            have hm : ((d :: s').drop p.length).length
                + ((c :: u').drop q.length).length ≤ N := by
              simp only [List.length_drop, List.length_cons] at hlen ⊢
              omega
            have := ih ((d :: s').drop p.length) ((c :: u').drop q.length) hm hsub
            omega
          · conv_rhs => rw [pyCount, dif_neg fun hc => hppre hc.2]
            have hne_eq : c :: u' ≠ d :: s' := by
              intro heq
              apply hppre
              rw [← heq]
              exact List.isPrefixOf_iff_prefix.mpr
                (hpq.trans (List.isPrefixOf_iff_prefix.mp hqpre))
            have hsuf' : (c :: u') <:+ s' :=
              (List.suffix_cons_iff.mp hsu).resolve_left hne_eq
            exact ih s' (c :: u') (by simp at hlen ⊢; omega) hsuf'
        · rw [pyCount, dif_neg fun hc => hqpre hc.2]
          exact ih (d :: s') u' (by simp at hlen ⊢; omega)
            ((List.suffix_cons c u').trans hsu)

/-- The three count fields of `analyze_text` are the raw lexicon counts, in
either branch. -/
theorem analyzeText_counts (text : List Char) :
    (analyzeText text).positiveCount = lexCount positiveLex (pyLower text) ∧
    (analyzeText text).negativeCount = lexCount negativeLex (pyLower text) ∧
    (analyzeText text).uncertaintyCount = lexCount uncertaintyLex (pyLower text) := by
  unfold analyzeText
  by_cases h : lexCount positiveLex (pyLower text) + lexCount negativeLex (pyLower text)
      + lexCount uncertaintyLex (pyLower text) = 0 <;>
    simp [h]

/-- C9: each occurrence of "uncertainty" in the lower-cased text is counted
once by the negative lexicon (entry "uncertainty") and at least once by the
uncertainty lexicon (entry "uncertain", a prefix of it), so it contributes
at least 2 to the total count used as the score denominator. -/
theorem uncertainty_counted_twice (text : List Char) :
    pyCount ("uncertainty".data) (pyLower text) ≤ (analyzeText text).negativeCount ∧
    pyCount ("uncertainty".data) (pyLower text) ≤
      (analyzeText text).uncertaintyCount ∧
    2 * pyCount ("uncertainty".data) (pyLower text) ≤
      (analyzeText text).positiveCount + (analyzeText text).negativeCount +
        (analyzeText text).uncertaintyCount := by
  obtain ⟨hcp, hcn, hcu⟩ := analyzeText_counts text
  have hneg : pyCount ("uncertainty".data) (pyLower text) ≤
      lexCount negativeLex (pyLower text) := by
    unfold lexCount
    exact List.le_sum_of_mem (List.mem_map_of_mem _ (by decide))
  have hunc : pyCount ("uncertainty".data) (pyLower text) ≤
      lexCount uncertaintyLex (pyLower text) := by
    have hle : pyCount ("uncertainty".data) (pyLower text) ≤
        pyCount ("uncertain".data) (pyLower text) :=
      pyCount_le_of_prefix (by decide) (by decide)
        ((pyLower text).length + (pyLower text).length) (pyLower text)
        (pyLower text) le_rfl List.suffix_rfl
    refine hle.trans ?_
    unfold lexCount
    exact List.le_sum_of_mem (List.mem_map_of_mem _ (by decide))
  rw [hcp, hcn, hcu]
  exact ⟨hneg, hunc, by omega⟩

/-- The label field is always computed from the overall score. -/
theorem analyzeText_label_eq (text : List Char) :
    (analyzeText text).sentimentLabel =
      labelSentiment ((analyzeText text).overallSentiment) := by
  unfold analyzeText
  by_cases h : lexCount positiveLex (pyLower text) + lexCount negativeLex (pyLower text)
      + lexCount uncertaintyLex (pyLower text) = 0 <;>
    simp [h]

theorem labelSentiment_iff (x : ℚ) :
    (labelSentiment x = "Positive" ↔ 3/5 < x) ∧
    (labelSentiment x = "Negative" ↔ x < 2/5) ∧
    (labelSentiment x = "Neutral" ↔ 2/5 ≤ x ∧ x ≤ 3/5) := by
  unfold labelSentiment
  split_ifs with h1 h2
  all_goals refine ⟨?_, ?_, ?_⟩ <;> simp_all <;> linarith

/-- C5: each of the three scores lies in [0,1]; they sum to exactly 1
whenever the total lexicon-match count is positive; and the overall
sentiment lies in [0,1]. -/
theorem analyze_text_score_bounds (text : List Char) :
    (0 ≤ (analyzeText text).positiveScore ∧ (analyzeText text).positiveScore ≤ 1) ∧
    (0 ≤ (analyzeText text).negativeScore ∧ (analyzeText text).negativeScore ≤ 1) ∧
    (0 ≤ (analyzeText text).uncertaintyScore ∧
      (analyzeText text).uncertaintyScore ≤ 1) ∧
    (0 < (analyzeText text).positiveCount + (analyzeText text).negativeCount +
        (analyzeText text).uncertaintyCount →
      (analyzeText text).positiveScore + (analyzeText text).negativeScore +
        (analyzeText text).uncertaintyScore = 1) ∧
    (0 ≤ (analyzeText text).overallSentiment ∧
      (analyzeText text).overallSentiment ≤ 1) := by
  unfold analyzeText
  set p := lexCount positiveLex (pyLower text) with hp
  set n := lexCount negativeLex (pyLower text) with hn
  set u := lexCount uncertaintyLex (pyLower text) with hu
  by_cases h : p + n + u = 0
  · simp only [h, if_pos rfl]
    norm_num
    omega
  · simp only [if_neg h]
    have htotn : 0 < p + n + u := Nat.pos_of_ne_zero h
    have htot : (0:ℚ) < ((p + n + u : Nat) : ℚ) := Nat.cast_pos.mpr htotn
    have hps : (0:ℚ) ≤ (p : ℚ) / ((p + n + u : Nat) : ℚ) :=
      div_nonneg (Nat.cast_nonneg p) htot.le
    have hns : (0:ℚ) ≤ (n : ℚ) / ((p + n + u : Nat) : ℚ) :=
      div_nonneg (Nat.cast_nonneg n) htot.le
    have hus : (0:ℚ) ≤ (u : ℚ) / ((p + n + u : Nat) : ℚ) :=
      div_nonneg (Nat.cast_nonneg u) htot.le
    have hple : (p : ℚ) / ((p + n + u : Nat) : ℚ) ≤ 1 :=
      (div_le_one htot).mpr (Nat.cast_le.mpr (by omega))
    have hnle : (n : ℚ) / ((p + n + u : Nat) : ℚ) ≤ 1 :=
      (div_le_one htot).mpr (Nat.cast_le.mpr (by omega))
    have hule : (u : ℚ) / ((p + n + u : Nat) : ℚ) ≤ 1 :=
      (div_le_one htot).mpr (Nat.cast_le.mpr (by omega))
    have hsum : (p : ℚ) / ((p + n + u : Nat) : ℚ) + (n : ℚ) / ((p + n + u : Nat) : ℚ)
        + (u : ℚ) / ((p + n + u : Nat) : ℚ) = 1 := by
      rw [div_add_div_same, div_add_div_same, div_eq_one_iff_eq htot.ne.symm]
      push_cast
      ring
    refine ⟨⟨hps, hple⟩, ⟨hns, hnle⟩, ⟨hus, hule⟩, fun _ => hsum, ⟨?_, ?_⟩⟩ <;>
      dsimp only <;> linarith

/-- C6: when no lexicon word occurs as a substring of the lower-cased text,
all three scores are 0, the overall sentiment is 0.5 and the label is
"Neutral"; and in general the label is "Positive" exactly when the overall
sentiment exceeds 0.6, "Negative" exactly when it is below 0.4, and
"Neutral" otherwise. -/
theorem analyze_text_neutral_and_labels :
    (∀ text : List Char,
      (∀ w ∈ positiveLex ++ negativeLex ++ uncertaintyLex,
          containsSub w (pyLower text) = false) →
        (analyzeText text).positiveScore = 0 ∧
        (analyzeText text).negativeScore = 0 ∧
        (analyzeText text).uncertaintyScore = 0 ∧
        (analyzeText text).overallSentiment = 1/2 ∧
        (analyzeText text).sentimentLabel = "Neutral") ∧
    (∀ text : List Char,
      ((analyzeText text).sentimentLabel = "Positive" ↔
        3/5 < (analyzeText text).overallSentiment) ∧
      ((analyzeText text).sentimentLabel = "Negative" ↔
        (analyzeText text).overallSentiment < 2/5) ∧
      ((analyzeText text).sentimentLabel = "Neutral" ↔
        (2/5 ≤ (analyzeText text).overallSentiment ∧
         (analyzeText text).overallSentiment ≤ 3/5))) := by
  constructor
  · intro text hno
    have hzero : ∀ lex, lex = positiveLex ∨ lex = negativeLex ∨ lex = uncertaintyLex →
        lexCount lex (pyLower text) = 0 := by
      intro lex hlex
      unfold lexCount
      rw [List.sum_eq_zero]
      intro x hx
      obtain ⟨w, hw, rfl⟩ := List.mem_map.mp hx
      refine pyCount_eq_zero_of_not_containsSub (hno w ?_)
      rcases hlex with rfl | rfl | rfl <;> simp [hw]
    have h1 := hzero positiveLex (Or.inl rfl)
    have h2 := hzero negativeLex (Or.inr (Or.inl rfl))
    have h3 := hzero uncertaintyLex (Or.inr (Or.inr rfl))
    unfold analyzeText
    simp only [h1, h2, h3, Nat.add_zero, if_pos rfl]
    exact ⟨rfl, rfl, rfl, rfl, labelSentiment_half⟩
  · intro text
    rw [analyzeText_label_eq]
    exact labelSentiment_iff _

/-- Witness for C6's first part at the concrete input `"zzzz"`. -/
theorem analyze_text_neutral_witness :
    (∀ w ∈ positiveLex ++ negativeLex ++ uncertaintyLex,
        containsSub w (pyLower ("zzzz".data)) = false) ∧
    ((analyzeText ("zzzz".data)).positiveScore = 0 ∧
     (analyzeText ("zzzz".data)).negativeScore = 0 ∧
     (analyzeText ("zzzz".data)).uncertaintyScore = 0 ∧
     (analyzeText ("zzzz".data)).overallSentiment = 1/2 ∧
     (analyzeText ("zzzz".data)).sentimentLabel = "Neutral") :=
  ⟨by decide, analyze_text_neutral_and_labels.1 ("zzzz".data) (by decide)⟩

/-!  A positional semantics for the regex fragment, and soundness of the
matcher against it: every candidate the engine lists is a real match. -/

theorem outcomesF_sound {t : List Char} :
    ∀ (fuel : Nat) (r : Regex) (i : Nat) (m : Nat × Option (Nat × Nat)),
      m ∈ outcomesF t fuel r i → Sem t r i m.1 := by
  intro fuel
  induction fuel with
  | zero => intro r i m hm; simp [outcomesF] at hm
  | succ f ih =>
    intro r i m hm
    cases r with
    | eps =>
      simp only [outcomesF, List.mem_singleton] at hm
      subst hm
      exact Sem.eps
    | wordB =>
      by_cases hb : atBoundary t i
      · simp only [outcomesF, hb, if_pos, List.mem_singleton] at hm
        subst hm
        exact Sem.wordB hb
      · simp [outcomesF, hb] at hm
    | cls q =>
      cases hc : t[i]? with
      | none => simp [outcomesF, hc] at hm
      | some c =>
        by_cases hq : q c
        · simp only [outcomesF, hc, hq, if_pos, List.mem_singleton] at hm
          subst hm
          exact Sem.cls hc hq
        · simp [outcomesF, hc, hq] at hm
    | cat r₁ r₂ =>
      simp only [outcomesF, List.mem_flatMap, List.mem_map] at hm
      obtain ⟨m₁, h₁, m₂, h₂, rfl⟩ := hm
      exact Sem.cat (ih r₁ i m₁ h₁) (ih r₂ m₁.1 m₂ h₂)
    | alt r₁ r₂ =>
      simp only [outcomesF, List.mem_append] at hm
      rcases hm with hm | hm
      · exact Sem.altL (ih r₁ i m hm)
      · exact Sem.altR (ih r₂ i m hm)
    | group r₁ =>
      simp only [outcomesF, List.mem_map] at hm
      obtain ⟨m₁, h₁, rfl⟩ := hm
      exact Sem.group (ih r₁ i m₁ h₁)
    | starG r₁ =>
      simp only [outcomesF, List.mem_append, List.mem_flatMap,
        List.mem_singleton] at hm
      rcases hm with ⟨m₁, h₁, hm⟩ | rfl
      · by_cases hlt : i < m₁.1
        · simp only [hlt, if_pos, List.mem_map] at hm
          obtain ⟨m₂, h₂, rfl⟩ := hm
          exact Sem.starGcons (ih r₁ i m₁ h₁) (ih (.starG r₁) m₁.1 m₂ h₂)
        · simp [hlt] at hm
      · exact Sem.starGnil
    | starL r₁ =>
      simp only [outcomesF, List.mem_cons, List.mem_flatMap] at hm
      rcases hm with rfl | ⟨m₁, h₁, hm⟩
      · exact Sem.starLnil
      · by_cases hlt : i < m₁.1
        · simp only [hlt, if_pos, List.mem_map] at hm
          obtain ⟨m₂, h₂, rfl⟩ := hm
          exact Sem.starLcons (ih r₁ i m₁ h₁) (ih (.starL r₁) m₁.1 m₂ h₂)
        · simp [hlt] at hm
    | repG n r₁ =>
      cases n with
      | zero =>
        simp only [outcomesF, List.mem_singleton] at hm
        subst hm
        exact Sem.repGnil
      | succ n' =>
        simp only [outcomesF, List.mem_append, List.mem_flatMap,
          List.mem_singleton, List.mem_map] at hm
        rcases hm with ⟨m₁, h₁, m₂, h₂, rfl⟩ | rfl
        · exact Sem.repGcons (ih r₁ i m₁ h₁) (ih (.repG n' r₁) m₁.1 m₂ h₂)
        · exact Sem.repGnil
    | repL n r₁ =>
      cases n with
      | zero =>
        simp only [outcomesF, List.mem_singleton] at hm
        subst hm
        exact Sem.repLnil
      | succ n' =>
        simp only [outcomesF, List.mem_cons, List.mem_flatMap,
          List.mem_map] at hm
        rcases hm with rfl | ⟨m₁, h₁, m₂, h₂, rfl⟩
        · exact Sem.repLnil
        · exact Sem.repLcons (ih r₁ i m₁ h₁) (ih (.repL n' r₁) m₁.1 m₂ h₂)

/-- A match never moves backwards. -/
theorem sem_le {t : List Char} {r : Regex} {i j : Nat} (h : Sem t r i j) :
    i ≤ j := by
  induction h with
  | eps => exact le_rfl
  | cls _ _ => exact Nat.le_succ _
  | wordB _ => exact le_rfl
  | cat _ _ ih₁ ih₂ => exact ih₁.trans ih₂
  | altL _ ih => exact ih
  | altR _ ih => exact ih
  | group _ ih => exact ih
  | starGnil => exact le_rfl
  | starGcons _ _ ih₁ ih₂ => exact ih₁.trans ih₂
  | starLnil => exact le_rfl
  | starLcons _ _ ih₁ ih₂ => exact ih₁.trans ih₂
  | repGnil => exact le_rfl
  | repGcons _ _ ih₁ ih₂ => exact ih₁.trans ih₂
  | repLnil => exact le_rfl
  | repLcons _ _ ih₁ ih₂ => exact ih₁.trans ih₂

theorem searchFromF_sound {t : List Char} {r : Regex} :
    ∀ (fuel i s e : Nat) (cap : Option (Nat × Nat)),
      searchFromF t r fuel i = some (s, e, cap) → Sem t r s e := by
  intro fuel
  induction fuel with
  | zero => intro i s e cap h; simp [searchFromF] at h
  | succ f ih =>
    intro i s e cap h
    rw [searchFromF] at h
    cases ho : outcomesF t (enoughFuel r t) r i with
    | cons m rest =>
      rw [ho] at h
      have hs : i = s ∧ m.1 = e := by
        have h1 := congrArg (fun o => o.map fun x => x.1) h
        have h2 := congrArg (fun o => o.map fun x => x.2.1) h
        simp at h1 h2
        exact ⟨h1, h2⟩
      obtain ⟨rfl, he⟩ := hs
      have hm : m ∈ outcomesF t (enoughFuel r t) r i :=
        ho ▸ List.mem_cons_self _ _
      exact he ▸ outcomesF_sound (enoughFuel r t) r i m hm
    | nil =>
      rw [ho] at h
      by_cases hi : i < t.length
      · rw [if_pos hi] at h
        exact ih (i+1) s e cap h
      · rw [if_neg hi] at h
        simp at h

theorem findAllFrom_sound {t : List Char} {r : Regex} :
    ∀ (fuel i : Nat) (p : Nat × Nat), p ∈ findAllFrom t r fuel i →
      Sem t r p.1 p.2 := by
  intro fuel
  induction fuel with
  | zero => intro i p hp; simp [findAllFrom] at hp
  | succ f ih =>
    intro i p hp
    rw [findAllFrom] at hp
    cases hsr : searchFromF t r (t.length + 1 - i) i with
    | none => rw [hsr] at hp; simp at hp
    | some sec =>
      obtain ⟨s, e, cap⟩ := sec
      rw [hsr] at hp
      rcases List.mem_cons.mp hp with rfl | hp'
      · exact searchFromF_sound _ i s e cap hsr
      · exact ih _ p hp'

/-!  Slices: unconditional splitting identities over the clamped Python
slice. -/

theorem pySlice_eq_drop_take (t : List Char) (i j : Nat) :
    pySlice t i j = (t.drop i).take (j - i) := by
  unfold pySlice
  rw [List.drop_take]

theorem pySlice_self (t : List Char) (i : Nat) : pySlice t i i = [] := by
  rw [pySlice_eq_drop_take]
  simp

theorem pySlice_cat (t : List Char) {i k j : Nat} (h1 : i ≤ k) (h2 : k ≤ j) :
    pySlice t i j = pySlice t i k ++ pySlice t k j := by
  rw [pySlice_eq_drop_take, pySlice_eq_drop_take, pySlice_eq_drop_take]
  have hj : j - i = (k - i) + (j - k) := by omega
  rw [hj, List.take_add]
  congr 1
  rw [List.drop_drop]
  congr 2
  omega

theorem pySlice_single {t : List Char} {i : Nat} {c : Char}
    (hc : t[i]? = some c) : pySlice t i (i+1) = [c] := by
  rw [pySlice_eq_drop_take, Nat.add_sub_cancel_left]
  rw [← List.head?_drop] at hc
  cases hd : t.drop i with
  | nil => rw [hd] at hc; simp at hc
  | cons a l =>
    rw [hd] at hc
    simp only [List.head?_cons, Option.some.injEq] at hc
    subst hc
    rfl

/-!  What a company-pattern match looks like, as a property of the matched
substring. -/

theorem sem_cls_inv {t : List Char} {q : Char → Bool} {i j : Nat}
    (h : Sem t (.cls q) i j) :
    j = i + 1 ∧ ∃ c, t[i]? = some c ∧ q c = true := by
  cases h with
  | cls hc hq => exact ⟨rfl, _, hc, hq⟩

theorem sem_cat_inv {t : List Char} {r₁ r₂ : Regex} {i j : Nat}
    (h : Sem t (.cat r₁ r₂) i j) : ∃ k, Sem t r₁ i k ∧ Sem t r₂ k j := by
  cases h with
  | cat h₁ h₂ => exact ⟨_, h₁, h₂⟩

theorem sem_alt_inv {t : List Char} {r₁ r₂ : Regex} {i j : Nat}
    (h : Sem t (.alt r₁ r₂) i j) : Sem t r₁ i j ∨ Sem t r₂ i j := by
  cases h with
  | altL h => exact Or.inl h
  | altR h => exact Or.inr h

theorem sem_starG_cls {t : List Char} {q : Char → Bool} {i j : Nat}
    (h : Sem t (.starG (.cls q)) i j) : ∀ c ∈ pySlice t i j, q c = true := by
  generalize hr : Regex.starG (.cls q) = rr at h
  induction h with
  | eps => exact Regex.noConfusion hr
  | cls _ _ => exact Regex.noConfusion hr
  | wordB _ => exact Regex.noConfusion hr
  | cat _ _ _ _ => exact Regex.noConfusion hr
  | altL _ _ => exact Regex.noConfusion hr
  | altR _ _ => exact Regex.noConfusion hr
  | group _ _ => exact Regex.noConfusion hr
  | starLnil => exact Regex.noConfusion hr
  | starLcons _ _ _ _ => exact Regex.noConfusion hr
  | repGnil => exact Regex.noConfusion hr
  | repGcons _ _ _ _ => exact Regex.noConfusion hr
  | repLnil => exact Regex.noConfusion hr
  | repLcons _ _ _ _ => exact Regex.noConfusion hr
  | starGnil =>
    intro c hc
    rw [pySlice_self] at hc
    simp at hc
  | starGcons h₁ h₂ ih₁ ih₂ =>
    injection hr with hr'
    subst hr'
    intro c hc
    rw [pySlice_cat t (sem_le h₁) (sem_le h₂)] at hc
    rcases List.mem_append.mp hc with hc | hc
    · obtain ⟨hk, c₀, hc₀, hq₀⟩ := sem_cls_inv h₁
      subst hk
      rw [pySlice_single hc₀, List.mem_singleton] at hc
      subst hc
      exact hq₀
    · exact ih₂ rfl c hc

theorem sem_plus_cls {t : List Char} {q : Char → Bool} {i j : Nat}
    (h : Sem t (.cat (.cls q) (.starG (.cls q))) i j) :
    pySlice t i j ≠ [] ∧ ∀ c ∈ pySlice t i j, q c = true := by
  obtain ⟨k, h₁, h₂⟩ := sem_cat_inv h
  obtain ⟨hk, c, hc, hq⟩ := sem_cls_inv h₁
  subst hk
  rw [pySlice_cat t (sem_le h₁) (sem_le h₂), pySlice_single hc]
  refine ⟨by simp, ?_⟩
  intro x hx
  rcases List.mem_append.mp hx with hx | hx
  · rw [List.mem_singleton.mp hx]
    exact hq
  · exact sem_starG_cls h₂ x hx

theorem sem_word {t : List Char} {i j : Nat}
    (h : Sem t (.cat alphaCls (plusOf alphaCls)) i j) :
    isWordTok (pySlice t i j) := by
  obtain ⟨k, h₁, h₂⟩ := sem_cat_inv h
  have h₁' : Sem t (.cls Char.isAlpha) i k := h₁
  obtain ⟨hk, c, hc, hq⟩ := sem_cls_inv h₁'
  subst hk
  have h₂' : Sem t (.cat (.cls Char.isAlpha) (.starG (.cls Char.isAlpha)))
      (i+1) j := h₂
  obtain ⟨hne, hall⟩ := sem_plus_cls h₂'
  rw [pySlice_cat t (sem_le h₁) (sem_le h₂), pySlice_single hc]
  constructor
  · have := List.length_pos.mpr hne
    simp only [List.length_append, List.length_singleton]
    omega
  · intro x hx
    rcases List.mem_append.mp hx with hx | hx
    · rw [List.mem_singleton.mp hx]
      exact hq
    · exact hall x hx

theorem sem_spaceRun {t : List Char} {i j : Nat} (h : Sem t sPlus i j) :
    isSpaceRun (pySlice t i j) := by
  have h' : Sem t (.cat (.cls pyIsSpace) (.starG (.cls pyIsSpace))) i j := h
  exact sem_plus_cls h'

/-- One iteration of the company pattern's starred tail: a whitespace run
then a word. -/
theorem sem_spword_body {t : List Char} {i j : Nat}
    (h : Sem t (.cat sPlus (.cat alphaCls (plusOf alphaCls))) i j) :
    ∃ k, i ≤ k ∧ k ≤ j ∧ isSpaceRun (pySlice t i k) ∧ isWordTok (pySlice t k j) := by
  obtain ⟨k, h₁, h₂⟩ := sem_cat_inv h
  exact ⟨k, sem_le h₁, sem_le h₂, sem_spaceRun h₁, sem_word h₂⟩

theorem sem_spword_star {t : List Char} {i j : Nat}
    (h : Sem t (.starG (.cat sPlus (.cat alphaCls (plusOf alphaCls)))) i j) :
    SpWordTail (pySlice t i j) := by
  generalize hr : Regex.starG (.cat sPlus (.cat alphaCls (plusOf alphaCls))) = rr at h
  induction h with
  | eps => exact Regex.noConfusion hr
  | cls _ _ => exact Regex.noConfusion hr
  | wordB _ => exact Regex.noConfusion hr
  | cat _ _ _ _ => exact Regex.noConfusion hr
  | altL _ _ => exact Regex.noConfusion hr
  | altR _ _ => exact Regex.noConfusion hr
  | group _ _ => exact Regex.noConfusion hr
  | starLnil => exact Regex.noConfusion hr
  | starLcons _ _ _ _ => exact Regex.noConfusion hr
  | repGnil => exact Regex.noConfusion hr
  | repGcons _ _ _ _ => exact Regex.noConfusion hr
  | repLnil => exact Regex.noConfusion hr
  | repLcons _ _ _ _ => exact Regex.noConfusion hr
  | starGnil =>
    rw [pySlice_self]
    exact SpWordTail.nil
  | starGcons h₁ h₂ ih₁ ih₂ =>
    injection hr with hr'
    subst hr'
    obtain ⟨k, hik, hkm, hsp, hw⟩ := sem_spword_body h₁
    rw [pySlice_cat t (sem_le h₁) (sem_le h₂),
      pySlice_cat t hik hkm, List.append_assoc]
    exact SpWordTail.cons hsp hw (ih₂ rfl)

/-- A case-insensitive literal matches exactly the strings whose lower
case is the literal. -/
theorem sem_litCI : ∀ (s : List Char) {t : List Char} {i j : Nat},
    Sem t (litCI s) i j → pyLower (pySlice t i j) = s := by
  intro s
  induction s with
  | nil =>
    intro t i j h
    have h' : Sem t .eps i j := h
    cases h' with
    | eps =>
      rw [pySlice_self]
      rfl
  | cons a s' ih =>
    intro t i j h
    cases s' with
    | nil =>
      have h' : Sem t (.cls fun c => c.toLower == a) i j := h
      obtain ⟨hj, c, hc, hq⟩ := sem_cls_inv h'
      subst hj
      rw [pySlice_single hc]
      have : c.toLower = a := by simpa using hq
      simp [pyLower, this]
    | cons b s'' =>
      have h' : Sem t (.cat (ciChar a) (litCI (b :: s''))) i j := h
      obtain ⟨k, h₁, h₂⟩ := sem_cat_inv h'
      have h₁' : Sem t (.cls fun c => c.toLower == a) i k := h₁
      obtain ⟨hk, c, hc, hq⟩ := sem_cls_inv h₁'
      subst hk
      rw [pySlice_cat t (sem_le h₁) (sem_le h₂), pySlice_single hc]
      have hca : c.toLower = a := by simpa using hq
      simp only [pyLower, List.map_append, List.map_singleton, hca]
      rw [show List.map Char.toLower (pySlice t (i+1) j) = pyLower (pySlice t (i+1) j) from rfl,
        ih h₂]
      rfl

theorem sem_corpSuffix {t : List Char} {i j : Nat}
    (h : Sem t (.alt (litCI ("inc.".data)) (.alt (litCI ("corp.".data))
      (.alt (litCI ("llc".data)) (litCI ("ltd.".data))))) i j) :
    pyLower (pySlice t i j) ∈ corpSuffixes := by
  rcases sem_alt_inv h with h | h
  · rw [sem_litCI _ h]
    simp [corpSuffixes]
  rcases sem_alt_inv h with h | h
  · rw [sem_litCI _ h]
    simp [corpSuffixes]
  rcases sem_alt_inv h with h | h <;>
    rw [sem_litCI _ h] <;> simp [corpSuffixes]

/-- Every company-pattern match has the amended shape. -/
theorem sem_companyRe_shape {t : List Char} {i j : Nat}
    (h : Sem t companyRe i j) : companyShape (pySlice t i j) := by
  have h' : Sem t (.cat .wordB (.cat alphaCls (.cat (plusOf alphaCls)
      (.cat (.starG (.cat sPlus (.cat alphaCls (plusOf alphaCls))))
        (.cat sPlus (.alt (litCI ("inc.".data)) (.alt (litCI ("corp.".data))
          (.alt (litCI ("llc".data)) (litCI ("ltd.".data)))))))))) i j := h
  obtain ⟨p0, hb, hrest⟩ := sem_cat_inv h'
  have hp0 : i = p0 := by
    cases hb with
    | wordB _ => rfl
  subst hp0
  obtain ⟨k1, ha1, hrest2⟩ := sem_cat_inv hrest
  obtain ⟨k2, ha2, hrest3⟩ := sem_cat_inv hrest2
  obtain ⟨k3, hstar, hrest4⟩ := sem_cat_inv hrest3
  obtain ⟨k4, hsp, hsuf⟩ := sem_cat_inv hrest4
  have hi2 : i ≤ k2 := (sem_le ha1).trans (sem_le ha2)
  have h23 : k2 ≤ k3 := sem_le hstar
  have h34 : k3 ≤ k4 := sem_le hsp
  have h4j : k4 ≤ j := sem_le hsuf
  rw [pySlice_cat t hi2 (h23.trans (h34.trans h4j)),
    pySlice_cat t h23 (h34.trans h4j), pySlice_cat t h34 h4j]
  exact ⟨pySlice t i k2, pySlice t k2 k3, pySlice t k3 k4, pySlice t k4 j, rfl,
    sem_word (Sem.cat ha1 ha2), sem_spword_star hstar,
    sem_spaceRun hsp, sem_corpSuffix hsuf⟩

/-!  Metric extraction: a lookup characterization per pattern-table row. -/

theorem lookup_pairs_filterMap_none (h : String × Regex → Option ℚ) (key : String) :
    ∀ l : List (String × Regex), key ∉ l.map Prod.fst →
      (l.filterMap fun p => (h p).map fun q => (p.1, q)).lookup key = none := by
  intro l
  induction l with
  | nil => intro _; rfl
  | cons p rest ih =>
    intro hk
    simp only [List.map_cons, List.mem_cons, not_or] at hk
    cases hp : h p with
    | none => simpa [List.filterMap_cons, hp] using ih hk.2
    | some q =>
      simp only [List.filterMap_cons, hp, Option.map_some]
      simp [List.lookup, beq_eq_false_iff_ne.mpr hk.1, ih hk.2]

theorem lookup_pairs_filterMap_nodup (h : String × Regex → Option ℚ) :
    ∀ (l : List (String × Regex)), (l.map Prod.fst).Nodup →
      ∀ k (hk : k < l.length),
        (l.filterMap fun p => (h p).map fun q => (p.1, q)).lookup (l[k].1)
          = h l[k] := by
  intro l
  induction l with
  | nil => intro _ k hk; simp at hk
  | cons p rest ih =>
    intro hnd k hk
    simp only [List.map_cons, List.nodup_cons] at hnd
    cases k with
    | zero =>
      cases hp : h p with
      | none =>
        simp only [List.filterMap_cons, hp, List.getElem_cons_zero]
        exact lookup_pairs_filterMap_none h p.1 rest hnd.1
      | some q =>
        simp [List.filterMap_cons, hp, List.lookup]
    | succ k' =>
      have hk' : k' < rest.length := by simpa using hk
      have hmem : (rest[k'].1) ∈ rest.map Prod.fst :=
        List.mem_map_of_mem _ (List.getElem_mem hk')
      have hne : ((rest[k'].1) == p.1) = false :=
        beq_eq_false_iff_ne.mpr fun he => hnd.1 (he ▸ hmem)
      cases hp : h p with
      | none =>
        simpa only [List.filterMap_cons, hp, List.getElem_cons_succ]
          using ih hnd.2 k' hk'
      | some q =>
        simp only [List.filterMap_cons, hp, Option.map_some,
          List.getElem_cons_succ]
        simp [List.lookup, hne, ih hnd.2 k' hk']

theorem extractMetrics_lookup_at (text : List Char) (k : Nat)
    (hk : k < metricPatterns.length) :
    (extractMetrics text).lookup (metricPatterns[k].1)
      = extractOneMetric text (metricPatterns[k].2) := by
  rw [extractMetrics_eq_filterMap]
  exact lookup_pairs_filterMap_nodup (fun p => extractOneMetric text p.2)
    metricPatterns (by decide) k hk

/-- C3: a matched metric's parsed value is multiplied by 1000 exactly when
"billion" (case-insensitively, via lower-casing) occurs in the window of
text from 50 characters before the match start to 20 after the match end;
in particular "Total Assets: $5.6 billion" yields total_assets = 5600. -/
theorem metric_scale_window :
    (∀ (text : List Char) (k : Nat) (hk : k < metricPatterns.length)
        (s e cs ce : Nat) (q : ℚ),
      reSearch (metricPatterns[k].2) text = some (s, e, some (cs, ce)) →
      pyFloatOfNumeral ((pySlice text cs ce).filter fun c => c != ',') = some q →
      (extractMetrics text).lookup (metricPatterns[k].1) =
        some (if containsSub ("billion".data)
            (pyLower (pySlice text (s - 50) (e + 20))) = true
          then q * 1000 else q)) ∧
    (extractMetrics ("Total Assets: $5.6 billion".data)).lookup "total_assets"
      = some 5600 := by
  have hgen : ∀ (text : List Char) (k : Nat) (hk : k < metricPatterns.length)
      (s e cs ce : Nat) (q : ℚ),
      reSearch (metricPatterns[k].2) text = some (s, e, some (cs, ce)) →
      pyFloatOfNumeral ((pySlice text cs ce).filter fun c => c != ',') = some q →
      (extractMetrics text).lookup (metricPatterns[k].1) =
        some (if containsSub ("billion".data)
            (pyLower (pySlice text (s - 50) (e + 20))) = true
          then q * 1000 else q) := by
    intro text k hk s e cs ce q hsearch hfloat
    rw [extractMetrics_lookup_at text k hk]
    unfold extractOneMetric
    rw [hsearch]
    simp only [hfloat]
    rfl
  refine ⟨hgen, ?_⟩
  have hfloat : pyFloatOfNumeral
      ((pySlice ("Total Assets: $5.6 billion".data) 15 18).filter fun c => c != ',')
      = some (28/5 : ℚ) := by
    have hslice : (pySlice ("Total Assets: $5.6 billion".data) 15 18).filter
        (fun c => c != ',') = "5.6".data := by decide
    rw [hslice]
    unfold pyFloatOfNumeral
    rw [if_pos (by decide)]
    have h1 : digitsVal (("5.6".data).takeWhile fun c => c != '.') = 5 := by decide
    have h2 : digitsVal ((("5.6".data).dropWhile fun c => c != '.').drop 1) = 6 := by
      decide
    have h3 : ((("5.6".data).dropWhile fun c => c != '.').drop 1).length = 1 := by
      decide
    rw [h1, h2, h3]
    norm_num
  have h := hgen ("Total Assets: $5.6 billion".data) 5 (by decide) 0 26 15 18
    (28/5) (by decide) hfloat
  have hcond : containsSub ("billion".data)
      (pyLower (pySlice ("Total Assets: $5.6 billion".data) (0 - 50) (26 + 20)))
      = true := by decide
  rw [hcond, if_pos rfl] at h
  have hname : (metricPatterns[5].1 : String) = "total_assets" := by decide
  rw [hname] at h
  rw [h]
  norm_num

/-- C7: the risk selector splits the text on runs of '.', '!' and '?',
keeps (stripped) exactly the sentences whose lower-cased form contains a
risk keyword and whose stripped length exceeds 50, in document order, and
returns at most the first 10; with exactly 20 qualifying sentences it
returns exactly the first 10, in order. -/
theorem risk_selector_filter_cap :
    (∀ text : List Char,
      extractRiskFactors text =
        (((splitRuns isSentenceSep text).filter riskQualifies).map pyStrip).take 10 ∧
      (extractRiskFactors text).length ≤ 10) ∧
    (∀ text : List Char,
      ((splitRuns isSentenceSep text).filter riskQualifies).length = 20 →
        extractRiskFactors text =
          (((splitRuns isSentenceSep text).filter riskQualifies).take 10).map pyStrip ∧
        (extractRiskFactors text).length = 10) := by
  constructor
  · intro text
    refine ⟨extractRiskFactors_eq text, ?_⟩
    rw [extractRiskFactors_eq]
    exact List.length_take_le _ _
  · intro text h20
    constructor
    · rw [extractRiskFactors_eq, List.map_take]
    · rw [extractRiskFactors_eq, List.length_take, List.length_map, h20]
      simp

theorem risk_selector_filter_cap_witness :
    ((splitRuns isSentenceSep riskCapText).filter riskQualifies).length = 20 ∧
    (extractRiskFactors riskCapText =
      (((splitRuns isSentenceSep riskCapText).filter riskQualifies).take 10).map
        pyStrip ∧
     (extractRiskFactors riskCapText).length = 10) :=
  ⟨by decide, risk_selector_filter_cap.2 riskCapText (by decide)⟩

/-- C10: every string the risk selector returns contains none of '.', '!'
or '?', and begins and ends with a non-whitespace character. -/
theorem risk_strings_clean (text : List Char) (r : List Char)
    (hr : r ∈ extractRiskFactors text) :
    (∀ c ∈ r, c ≠ '.' ∧ c ≠ '!' ∧ c ≠ '?') ∧
    r ≠ [] ∧
    (∀ c, r.head? = some c → pyIsSpace c = false) ∧
    (∀ c, r.getLast? = some c → pyIsSpace c = false) := by
  rw [extractRiskFactors_eq] at hr
  have hr' := List.mem_of_mem_take hr
  obtain ⟨s, hs, rfl⟩ := List.mem_map.mp hr'
  obtain ⟨hmem, hqual⟩ := List.mem_filter.mp hs
  have hlen : 50 < (pyStrip s).length := by
    unfold riskQualifies at hqual
    simp only [Bool.and_eq_true, decide_eq_true_eq] at hqual
    exact hqual.2
  have hnosep : ∀ c ∈ s, isSentenceSep c = false :=
    mem_splitRunsGo_no_sep text [] false s (by simp) hmem
  refine ⟨?_, ?_, ?_, ?_⟩
  · intro c hc
    have hcs : c ∈ s := (pyStrip_sublist s).subset hc
    have := hnosep c hcs
    unfold isSentenceSep at this
    simp only [Bool.or_eq_false_iff, beq_eq_false_iff_ne] at this
    exact ⟨this.1.1, this.1.2, this.2⟩
  · intro hnil
    rw [hnil] at hlen
    simp at hlen
  · intro c hc
    exact pyStrip_head_not_space hc
  · intro c hc
    exact pyStrip_getLast_not_space hc

/-- Witness for C10 at a one-sentence concrete text. -/
theorem risk_strings_clean_witness :
    (("The major risk and uncertainty of this project is considerable".data) ∈
      extractRiskFactors
        ("   The major risk and uncertainty of this project is considerable.  ".data)) ∧
    ((∀ c ∈ ("The major risk and uncertainty of this project is considerable".data),
        c ≠ '.' ∧ c ≠ '!' ∧ c ≠ '?') ∧
     ("The major risk and uncertainty of this project is considerable".data) ≠ [] ∧
     (∀ c, ("The major risk and uncertainty of this project is considerable".data).head?
        = some c → pyIsSpace c = false) ∧
     (∀ c, ("The major risk and uncertainty of this project is considerable".data).getLast?
        = some c → pyIsSpace c = false)) :=
  ⟨by decide,
   risk_strings_clean
     ("   The major risk and uncertainty of this project is considerable.  ".data)
     ("The major risk and uncertainty of this project is considerable".data)
     (by decide)⟩

/-- Witness for C1 at the concrete whitespace-only input `" "`. -/
theorem parse_filing_total_empty_on_ws_witness :
    (∀ c ∈ (" ".data), pyIsSpace c = true) ∧
    ((parseFiling (" ".data) none "10-K").metrics = [] ∧
     (parseFiling (" ".data) none "10-K").ratios = [] ∧
     (parseFiling (" ".data) none "10-K").sectionLengths = [] ∧
     (parseFiling (" ".data) none "10-K").risks = [] ∧
     (parseFiling (" ".data) none "10-K").entities =
       [("company", []), ("date", []), ("money", []), ("percentage", [])] ∧
     (parseFiling (" ".data) none "10-K").sentiment.overallSentiment = 1/2) :=
  ⟨by decide, parse_filing_total_empty_on_ws (" ".data) none ("10-K") (by decide)⟩

/-!  C8: the shape of company entities. -/

theorem extractEntities_company_lookup (text : List Char) :
    (extractEntities text).lookup "company"
      = some ((findMatches companyRe text).dedup) := rfl

/-- C8 (corrected): `re.IGNORECASE` applies to the whole company pattern,
not just the corporate suffix, so the word classes `[A-Z][a-z]+` accept
letters of either case.  Every collected company entity is a sequence of
letter words of length ≥ 2 (in any case) separated by whitespace runs,
then whitespace, then one of the suffixes inc./corp./llc/ltd. matched
case-insensitively. -/
theorem company_entities_shape (text : List Char) (l : List (List Char))
    (hl : (extractEntities text).lookup "company" = some l) :
    ∀ x ∈ l, companyShape x := by
  rw [extractEntities_company_lookup] at hl
  have hl' : l = (findMatches companyRe text).dedup := (Option.some_inj.mp hl).symm
  subst hl'
  intro x hx
  rw [List.mem_dedup] at hx
  simp only [findMatches] at hx
  obtain ⟨p, hp, rfl⟩ := List.mem_map.mp hx
  exact sem_companyRe_shape (findAllFrom_sound _ _ p hp)

/-- Witness for the corrected C8 at the concrete text "acme inc.". -/
theorem company_entities_shape_witness :
    ((extractEntities ("acme inc.".data)).lookup "company"
      = some ((findMatches companyRe ("acme inc.".data)).dedup)) ∧
    companyShape ("acme inc.".data) :=
  ⟨rfl, company_entities_shape ("acme inc.".data)
    ((findMatches companyRe ("acme inc.".data)).dedup) rfl
    ("acme inc.".data) (by decide)⟩

/-- C8 counterexample: on input "acme inc." the company class collects
"acme inc." itself, whose first word begins with a lower-case letter —
refuting the claim that each word starts with an upper-case letter and
that only the suffix is case-insensitive. -/
theorem company_capitalization_cex :
    (("acme inc.".data) ∈
      (((extractEntities ("acme inc.".data)).lookup "company").getD [])) ∧
    ("acme inc.".data).head? = some 'a' ∧ 'a'.isUpper = false := by
  decide
